import Mathlib

/-!
Verification of the preview-formatting / credential-extraction core of an
interactive search CLI.  Strings are modelled as `List Char`; JavaScript
regular-expression scans are embedded as deterministic fuel-based scanners
(each pattern in the source is simple enough that its backtracking is
deterministic, as argued in the doc comment of each matcher).
-/

/-- The set of characters matched by JavaScript's `\s` class (and by
`String.prototype.trim`): whitespace and line terminators. -/
def jsWs (c : Char) : Bool :=
  c = ' ' || c = '\t' || c = '\n' || c = '\r' || c = '\x0b' || c = '\x0c' ||
  c = ' ' || c = ' ' ||
  (' ' ≤ c && c ≤ ' ') ||
  c = ' ' || c = ' ' || c = ' ' || c = ' ' ||
  c = '　' || c = '﻿'

/-- Characters allowed inside an ANSI SGR escape body: `[0-9;]`. -/
def csiChar (c : Char) : Bool := ('0' ≤ c && c ≤ '9') || c = ';'

theorem jsWs_ne_esc {c : Char} (h : jsWs c = true) : c ≠ '\x1b' := by
  intro he; subst he; simp [jsWs] at h

theorem jsWs_m_false : jsWs 'm' = false := by decide

theorem csiChar_ne_esc {c : Char} (h : csiChar c = true) : c ≠ '\x1b' := by
  intro he; subst he; simp [csiChar] at h

/-- ASCII lower-casing of one character; models `toLowerCase` on the ASCII
range (the only range exercised by the program's inputs of interest). -/
def asciiLower (c : Char) : Char :=
  if 'A' ≤ c ∧ c ≤ 'Z' then Char.ofNat (c.toNat + 32) else c

/-- Lower-casing a string, modelling `str.toLowerCase()`. -/
def toLowerL (s : List Char) : List Char := s.map asciiLower

/-- `startsWithL pre s`: does `s` start with `pre`? -/
def startsWithL : List Char → List Char → Bool
  | [], _ => true
  | _ :: _, [] => false
  | p :: ps, c :: cs => p = c && startsWithL ps cs

/-- `containsSub s sub` decides JavaScript's `s.includes(sub)`: `sub` occurs
contiguously somewhere in `s`. -/
def containsSub : List Char → List Char → Bool
  | s, sub =>
    startsWithL sub s ||
      match s with
      | [] => false
      | _ :: t => containsSub t sub

/-- `trimEnd`: remove trailing JS whitespace. -/
def trimEndL (s : List Char) : List Char := ((s.reverse).dropWhile jsWs).reverse

/-- `trim`: remove leading and trailing JS whitespace. -/
def trimL (s : List Char) : List Char := (trimEndL s).dropWhile jsWs

/-! ### stripAnsiCodes

Source (part_002, lines 318-321):
`str.replace(/\u001b\[[0-9;]*m/g, '')`.
The global replace is a deterministic left-to-right scan: at each position,
an escape sequence `ESC '[' [0-9;]* 'm'` is either consumed whole (greedy
`[0-9;]*` cannot backtrack usefully because the given-back characters can
never match `m`) or the head character is kept and the scan advances one
character. -/

/-- If the input starts with a full SGR escape sequence, return the text
after it. -/
def headEsc (s : List Char) : Option (List Char) :=
  match s with
  | c1 :: c2 :: r2 =>
    if c1 = '\x1b' ∧ c2 = '[' then
      match r2.dropWhile csiChar with
      | c3 :: r3 => if c3 = 'm' then some r3 else none
      | [] => none
    else none
  | _ => none

theorem headEsc_some_shape {s r3 : List Char} (h : headEsc s = some r3) :
    ∃ run, s = '\x1b' :: '[' :: (run ++ 'm' :: r3) ∧ ∀ c ∈ run, csiChar c = true := by
  match s with
  | [] => simp [headEsc] at h
  | [c1] => simp [headEsc] at h
  | c1 :: c2 :: r2 =>
    simp only [headEsc] at h
    split at h
    · rename_i hcc
      obtain ⟨h1, h2⟩ := hcc
      subst h1; subst h2
      cases hd : r2.dropWhile csiChar with
      | nil => rw [hd] at h; simp at h
      | cons c3 r3' =>
        rw [hd] at h
        dsimp only at h
        split at h
        · rename_i h3
          subst h3
          have hr : r3' = r3 := by simpa using h
          subst hr
          refine ⟨r2.takeWhile csiChar, ?_, fun c hc => List.mem_takeWhile_imp hc⟩
          have hsplit : r2.takeWhile csiChar ++ r2.dropWhile csiChar = r2 :=
            List.takeWhile_append_dropWhile csiChar r2
          rw [hd] at hsplit
          rw [hsplit]
        · simp at h
    · simp at h

theorem headEsc_some_length {s r3 : List Char} (h : headEsc s = some r3) :
    r3.length + 3 ≤ s.length := by
  obtain ⟨run, hs, -⟩ := headEsc_some_shape h
  subst hs; simp only [List.length_cons, List.length_append]; omega

/-- Fuel-based scanner for `stripAnsiCodes`; fuel bounds the number of steps,
each of which consumes at least one character. -/
def stripAnsiF : Nat → List Char → List Char
  | 0, s => s
  | _ + 1, [] => []
  | f + 1, c :: rest =>
    match headEsc (c :: rest) with
    | some r3 => stripAnsiF f r3
    | none => c :: stripAnsiF f rest

/-- `stripAnsiCodes` from the source: remove all ANSI SGR escape sequences. -/
def stripAnsi (s : List Char) : List Char := stripAnsiF s.length s

theorem stripAnsiF_irrel {f1 f2 : Nat} {s : List Char} (h1 : s.length ≤ f1)
    (h2 : s.length ≤ f2) : stripAnsiF f1 s = stripAnsiF f2 s := by
  induction f1 using Nat.strong_induction_on generalizing f2 s with
  | _ f1 ih =>
    match f1, s with
    | 0, s =>
      have hs : s = [] := by
        cases s with
        | nil => rfl
        | cons a t => simp at h1
      subst hs
      cases f2 <;> rfl
    | g + 1, [] => cases f2 <;> rfl
    | g + 1, c :: rest =>
      cases f2 with
      | zero => simp at h2
      | succ g2 =>
        simp only [stripAnsiF]
        cases he : headEsc (c :: rest) with
        | some r3 =>
          have h3 := headEsc_some_length he
          simp only [List.length_cons] at h1 h2 h3
          show stripAnsiF g r3 = stripAnsiF g2 r3
          exact @ih g (by omega) g2 r3 (by omega) (by omega)
        | none =>
          simp only [List.length_cons] at h1 h2
          show c :: stripAnsiF g rest = c :: stripAnsiF g2 rest
          exact congrArg _ (@ih g (by omega) g2 rest (by omega) (by omega))

theorem stripAnsiF_fuel {f : Nat} {s : List Char} (h : s.length ≤ f) :
    stripAnsiF f s = stripAnsi s := stripAnsiF_irrel h (Nat.le_refl _)

theorem stripAnsi_nil : stripAnsi [] = [] := rfl

theorem stripAnsi_esc {s r3 : List Char} (h : headEsc s = some r3) :
    stripAnsi s = stripAnsi r3 := by
  have h3 := headEsc_some_length h
  match s with
  | [] => simp [headEsc] at h
  | c :: rest =>
    simp only [stripAnsi, List.length_cons, stripAnsiF, h]
    simp only [List.length_cons] at h3
    exact stripAnsiF_fuel (by omega)

theorem stripAnsi_keep {c : Char} {rest : List Char} (h : headEsc (c :: rest) = none) :
    stripAnsi (c :: rest) = c :: stripAnsi rest := by
  simp only [stripAnsi, List.length_cons, stripAnsiF, h]

theorem headEsc_none_of_ne {c : Char} (l : List Char) (h : c ≠ '\x1b') :
    headEsc (c :: l) = none := by
  cases l with
  | nil => rfl
  | cons c2 t => simp [headEsc, h]

theorem dropWhile_append_all {p : Char → Bool} {x : List Char} (y : List Char)
    (h : ∀ c ∈ x, p c = true) : (x ++ y).dropWhile p = y.dropWhile p := by
  induction x with
  | nil => rfl
  | cons a t ih =>
    simp only [List.cons_append, List.dropWhile_cons, h a (by simp)]
    exact ih (fun c hc => h c (by simp [hc]))

theorem dropWhile_append_cons {p : Char → Bool} {x : List Char} (y : List Char)
    {d : Char} {ds : List Char} (h : x.dropWhile p = d :: ds) :
    (x ++ y).dropWhile p = d :: (ds ++ y) := by
  induction x with
  | nil => simp at h
  | cons a t ih =>
    cases hpa : p a with
    | true =>
      rw [List.dropWhile_cons, hpa, if_pos rfl] at h
      rw [List.cons_append, List.dropWhile_cons, hpa, if_pos rfl]
      exact ih h
    | false =>
      rw [List.dropWhile_cons, hpa] at h
      simp only [Bool.false_eq_true, if_false] at h
      rw [List.cons_append, List.dropWhile_cons, hpa]
      simp only [Bool.false_eq_true, if_false]
      obtain ⟨h1, h2⟩ := List.cons_eq_cons.mp h
      subst h1; subst h2; rfl

theorem headEsc_append_some (b : List Char) {s r : List Char} (h : headEsc s = some r) :
    headEsc (s ++ b) = some (r ++ b) := by
  obtain ⟨run, hs, hrun⟩ := headEsc_some_shape h
  subst hs
  have hcm : csiChar 'm' = false := by decide
  have hmb : List.dropWhile csiChar ('m' :: (r ++ b)) = 'm' :: (r ++ b) := by
    rw [List.dropWhile_cons, hcm]
    simp
  have hd : (run ++ 'm' :: (r ++ b)).dropWhile csiChar = 'm' :: (r ++ b) := by
    rw [dropWhile_append_all _ hrun]
    exact hmb
  simp [headEsc, hd]

theorem headEsc_append_none (b : List Char) {c : Char} {rest : List Char}
    (h : headEsc (c :: rest) = none) :
    headEsc ((c :: rest) ++ b) = none ∨
      ∃ x r', b = x ++ 'm' :: r' ∧ headEsc ((c :: rest) ++ b) = some r' ∧
        ∀ ch ∈ x, ch ≠ '\x1b' := by
  by_cases hc : c = '\x1b'
  · subst hc
    cases rest with
    | nil =>
      cases b with
      | nil => left; rfl
      | cons b1 bt =>
        by_cases hb1 : b1 = '['
        · subst hb1
          cases hd : bt.dropWhile csiChar with
          | nil => left; simp [headEsc, hd]
          | cons d ds =>
            by_cases hdm : d = 'm'
            · subst hdm
              right
              refine ⟨'[' :: bt.takeWhile csiChar, ds, ?_, ?_, ?_⟩
              · have hsplit : bt.takeWhile csiChar ++ bt.dropWhile csiChar = bt :=
                  List.takeWhile_append_dropWhile csiChar bt
                rw [hd] at hsplit
                show '[' :: bt = '[' :: (bt.takeWhile csiChar ++ 'm' :: ds)
                exact congrArg _ hsplit.symm
              · simp [headEsc, hd]
              · intro ch hch
                rcases List.mem_cons.mp hch with h1 | h1
                · subst h1; decide
                · exact csiChar_ne_esc (List.mem_takeWhile_imp h1)
            · left; simp [headEsc, hd, hdm]
        · left
          show headEsc ('\x1b' :: b1 :: bt) = none
          simp [headEsc, hb1]
    | cons c2 r2 =>
      by_cases hc2 : c2 = '['
      · subst hc2
        cases hd : r2.dropWhile csiChar with
        | nil =>
          have hall : ∀ ch ∈ r2, csiChar ch = true := List.dropWhile_eq_nil_iff.mp hd
          cases hd2 : b.dropWhile csiChar with
          | nil =>
            left
            have : (r2 ++ b).dropWhile csiChar = [] := by
              rw [dropWhile_append_all _ hall, hd2]
            simp [headEsc, this]
          | cons d ds =>
            by_cases hdm : d = 'm'
            · subst hdm
              right
              refine ⟨b.takeWhile csiChar, ds, ?_, ?_, ?_⟩
              · have hsplit : b.takeWhile csiChar ++ b.dropWhile csiChar = b :=
                  List.takeWhile_append_dropWhile csiChar b
                rw [hd2] at hsplit
                exact hsplit.symm
              · have : (r2 ++ b).dropWhile csiChar = 'm' :: ds := by
                  rw [dropWhile_append_all _ hall, hd2]
                simp [headEsc, this]
              · exact fun ch hch => csiChar_ne_esc (List.mem_takeWhile_imp hch)
            · left
              have : (r2 ++ b).dropWhile csiChar = d :: ds := by
                rw [dropWhile_append_all _ hall, hd2]
              simp [headEsc, this, hdm]
        | cons d ds =>
          have hdm : d ≠ 'm' := by
            intro he; subst he
            simp [headEsc, hd] at h
          left
          have : (r2 ++ b).dropWhile csiChar = d :: (ds ++ b) :=
            dropWhile_append_cons b hd
          simp [headEsc, this, hdm]
      · left
        show headEsc ('\x1b' :: c2 :: (r2 ++ b)) = none
        simp [headEsc, hc2]
  · left
    exact headEsc_none_of_ne _ hc

theorem stripAnsi_append_noesc {x : List Char} (b : List Char)
    (h : ∀ c ∈ x, c ≠ '\x1b') : stripAnsi (x ++ b) = x ++ stripAnsi b := by
  induction x with
  | nil => simp
  | cons a t ih =>
    have ha : a ≠ '\x1b' := h a (by simp)
    rw [List.cons_append, stripAnsi_keep (headEsc_none_of_ne _ ha),
      ih (fun c hc => h c (by simp [hc]))]
    rfl

theorem stripAnsi_self_noesc {x : List Char} (h : ∀ c ∈ x, c ≠ '\x1b') :
    stripAnsi x = x := by
  have h2 := stripAnsi_append_noesc [] h
  rw [List.append_nil] at h2
  rw [h2, stripAnsi_nil, List.append_nil]

theorem stripAnsi_append_le_aux : ∀ (n : Nat) (a b : List Char), a.length ≤ n →
    (stripAnsi (a ++ b)).length ≤ (stripAnsi a).length + (stripAnsi b).length := by
  intro n
  induction n using Nat.strong_induction_on with
  | _ n ih =>
    intro a b hn
    match a with
    | [] => simp
    | c :: rest =>
      cases he : headEsc (c :: rest) with
      | some r3 =>
        have h3 := headEsc_some_length he
        simp only [List.length_cons] at h3 hn
        have e1 := stripAnsi_esc he
        have e2 := stripAnsi_esc (headEsc_append_some b he)
        rw [e1, e2]
        exact ih r3.length (by omega) r3 b (Nat.le_refl _)
      | none =>
        rcases headEsc_append_none b he with hnone | ⟨x, r', hb, hsome, hx⟩
        · have e1 := stripAnsi_keep he
          have e2 : stripAnsi ((c :: rest) ++ b) = c :: stripAnsi (rest ++ b) :=
            stripAnsi_keep hnone
          rw [e1, e2]
          simp only [List.length_cons] at hn ⊢
          have hrec := ih rest.length (by omega) rest b (Nat.le_refl _)
          omega
        · have e2 := stripAnsi_esc hsome
          rw [e2]
          have hxm : ∀ ch ∈ x ++ ['m'], ch ≠ '\x1b' := by
            intro ch hch
            rcases List.mem_append.mp hch with h1 | h1
            · exact hx ch h1
            · simp at h1; subst h1; decide
          have hbs : stripAnsi b = (x ++ ['m']) ++ stripAnsi r' := by
            rw [hb, show x ++ 'm' :: r' = (x ++ ['m']) ++ r' by simp]
            exact stripAnsi_append_noesc r' hxm
          have hle : (stripAnsi r').length ≤ (stripAnsi b).length := by
            rw [hbs]; simp only [List.length_append]; omega
          omega

theorem stripAnsi_append_le (a b : List Char) :
    (stripAnsi (a ++ b)).length ≤ (stripAnsi a).length + (stripAnsi b).length :=
  stripAnsi_append_le_aux a.length a b (Nat.le_refl _)

theorem stripAnsi_append_ws_aux : ∀ (n : Nat) (a ws : List Char), a.length ≤ n →
    (∀ c ∈ ws, jsWs c = true) → stripAnsi (a ++ ws) = stripAnsi a ++ ws := by
  intro n
  induction n using Nat.strong_induction_on with
  | _ n ih =>
    intro a ws hn hws
    match a with
    | [] =>
      simpa using stripAnsi_self_noesc (fun c hc => jsWs_ne_esc (hws c hc))
    | c :: rest =>
      cases he : headEsc (c :: rest) with
      | some r3 =>
        have h3 := headEsc_some_length he
        simp only [List.length_cons] at h3 hn
        rw [stripAnsi_esc he, stripAnsi_esc (headEsc_append_some ws he)]
        exact ih r3.length (by omega) r3 ws (Nat.le_refl _) hws
      | none =>
        rcases headEsc_append_none ws he with hnone | ⟨x, r', hb, hsome, hx⟩
        · have e2 : stripAnsi ((c :: rest) ++ ws) = c :: stripAnsi (rest ++ ws) :=
            stripAnsi_keep hnone
          simp only [List.length_cons] at hn
          rw [stripAnsi_keep he, e2,
            ih rest.length (by omega) rest ws (Nat.le_refl _) hws]
          rfl
        · exfalso
          have hm : jsWs 'm' = true := hws 'm' (by rw [hb]; simp)
          simp [jsWs_m_false] at hm

theorem stripAnsi_append_ws {a ws : List Char} (hws : ∀ c ∈ ws, jsWs c = true) :
    stripAnsi (a ++ ws) = stripAnsi a ++ ws :=
  stripAnsi_append_ws_aux a.length a ws (Nat.le_refl _) hws

theorem trimEndL_decomp (s : List Char) :
    ∃ t, s = trimEndL s ++ t ∧ ∀ c ∈ t, jsWs c = true := by
  refine ⟨(s.reverse.takeWhile jsWs).reverse, ?_, ?_⟩
  · unfold trimEndL
    conv_lhs => rw [← s.reverse_reverse]
    rw [← List.reverse_append]
    congr 1
    exact (List.takeWhile_append_dropWhile jsWs s.reverse).symm
  · intro c hc
    rw [List.mem_reverse] at hc
    exact List.mem_takeWhile_imp hc

theorem stripAnsi_trimEndL_le (s : List Char) :
    (stripAnsi (trimEndL s)).length ≤ (stripAnsi s).length := by
  obtain ⟨t, hs, ht⟩ := trimEndL_decomp s
  conv_rhs => rw [hs]
  rw [stripAnsi_append_ws ht]
  simp

theorem dropWhile_self_of_all_false {p : Char → Bool} :
    ∀ {l : List Char}, (∀ c ∈ l, p c = false) → l.dropWhile p = l
  | [], _ => rfl
  | c :: t, h => by
    rw [List.dropWhile_cons, h c (by simp)]
    simp

theorem trimEndL_of_noWs {s : List Char} (h : ∀ c ∈ s, jsWs c = false) :
    trimEndL s = s := by
  unfold trimEndL
  rw [dropWhile_self_of_all_false (fun c hc => h c (List.mem_reverse.mp hc))]
  exact s.reverse_reverse

theorem trimEndL_of_allWs {s : List Char} (h : ∀ c ∈ s, jsWs c = true) :
    trimEndL s = [] := by
  unfold trimEndL
  rw [List.dropWhile_eq_nil_iff.mpr (fun c hc => h c (List.mem_reverse.mp hc))]
  rfl

theorem dropWhile_len_le {p : Char → Bool} (l : List Char) :
    (l.dropWhile p).length ≤ l.length := by
  induction l with
  | nil => simp
  | cons a t ih =>
    rw [List.dropWhile_cons]
    split
    · simp only [List.length_cons]; omega
    · exact Nat.le_refl _

theorem dropWhile_head_not {p : Char → Bool} :
    ∀ {l : List Char} {d : Char} {ds : List Char}, l.dropWhile p = d :: ds → p d = false := by
  intro l
  induction l with
  | nil => intro d ds h; simp at h
  | cons a t ih =>
    intro d ds h
    cases hpa : p a with
    | true =>
      rw [List.dropWhile_cons, hpa, if_pos rfl] at h
      exact ih h
    | false =>
      rw [List.dropWhile_cons, hpa] at h
      simp only [Bool.false_eq_true, if_false] at h
      obtain ⟨h1, -⟩ := List.cons_eq_cons.mp h
      subst h1
      exact hpa

/-! ### wrapLine

Source (part_002, lines 323-357).  The split
`text.split(/(\s{3,}|\s+)/)` produces the alternating word / whitespace-run
chunks of the input (captured separators included); at a whitespace position
the alternation always matches the maximal whitespace run. -/

/-- Fuel-based chunker for `text.split(/(\s{3,}|\s+)/)`: alternating maximal
non-whitespace and whitespace runs, starting and ending with a (possibly
empty) non-whitespace chunk. -/
def splitWsF : Nat → List Char → List (List Char)
  | 0, s => [s]
  | f + 1, s =>
    match s.dropWhile (fun c => !jsWs c) with
    | [] => [s.takeWhile (fun c => !jsWs c)]
    | r0 :: rtail =>
      s.takeWhile (fun c => !jsWs c) :: ((r0 :: rtail).takeWhile jsWs) ::
        splitWsF f ((r0 :: rtail).dropWhile jsWs)

/-- The chunk list of `text.split(/(\s{3,}|\s+)/)`. -/
def splitWs (s : List Char) : List (List Char) := splitWsF s.length s

theorem splitWsF_chunks : ∀ (f : Nat) (s : List Char), s.length ≤ f →
    ∀ p ∈ splitWsF f s, (∀ c ∈ p, jsWs c = false) ∨ (∀ c ∈ p, jsWs c = true) := by
  intro f
  induction f using Nat.strong_induction_on with
  | _ f ih =>
    intro s hf p hp
    match f, hp with
    | 0, hp =>
      have hs : s = [] := by
        cases s with
        | nil => rfl
        | cons a t => simp at hf
      subst hs
      simp only [splitWsF, List.mem_singleton] at hp
      subst hp
      left; intro c hc; simp at hc
    | g + 1, hp =>
      simp only [splitWsF] at hp
      cases hr : s.dropWhile (fun c => !jsWs c) with
      | nil =>
        rw [hr] at hp
        simp only [List.mem_singleton] at hp
        subst hp
        left
        intro c hc
        have := List.mem_takeWhile_imp hc
        simpa using this
      | cons r0 rtail =>
        rw [hr] at hp
        rcases List.mem_cons.mp hp with h1 | hp2
        · subst h1
          left
          intro c hc
          have := List.mem_takeWhile_imp hc
          simpa using this
        · rcases List.mem_cons.mp hp2 with h1 | hp3
          · subst h1
            right
            intro c hc
            exact List.mem_takeWhile_imp hc
          · have hws0 : jsWs r0 = true := by
              have := dropWhile_head_not hr
              simpa using this
            have hlen : ((r0 :: rtail).dropWhile jsWs).length ≤ g := by
              rw [List.dropWhile_cons, hws0, if_pos rfl]
              have hd : (s.dropWhile fun c => !jsWs c).length ≤ s.length :=
                dropWhile_len_le s
              rw [hr] at hd
              simp only [List.length_cons] at hd
              have hdw : (rtail.dropWhile jsWs).length ≤ rtail.length :=
                dropWhile_len_le rtail
              omega
            exact ih g (by omega) _ hlen p hp3

theorem splitWs_chunks (s : List Char) :
    ∀ p ∈ splitWs s, (∀ c ∈ p, jsWs c = false) ∨ (∀ c ∈ p, jsWs c = true) :=
  splitWsF_chunks s.length s (Nat.le_refl _)

/-- The `^\s{3,}$` test from the wrapping loop. -/
def isSep3 (p : List Char) : Bool := decide (3 ≤ p.length) && p.all jsWs

/-- The accumulation loop of `wrapLine` (part_002, lines 326-354), processing
the chunk list with the current line as accumulator. -/
def wrapGo (maxWidth : Nat) : List (List Char) → List Char → List (List Char)
  | [], cur => if trimL cur ≠ [] then [trimEndL cur] else []
  | p :: ps, cur =>
    if maxWidth < (stripAnsi cur).length + (stripAnsi p).length ∧ cur ≠ [] then
      if isSep3 p then trimEndL cur :: wrapGo maxWidth ps []
      else trimEndL cur :: wrapGo maxWidth ps p
    else wrapGo maxWidth ps (cur ++ p)

/-- `wrapLine` from the source: wrap a styled line to `maxWidth` visible
columns. -/
def wrapLine (text : List Char) (maxWidth : Nat) : List (List Char) :=
  wrapGo maxWidth (splitWs text) []

theorem wrap_push_ok {w : Nat} {P : List (List Char)}
    (hP : ∀ p ∈ P, (∀ c ∈ p, jsWs c = false) ∨ (∀ c ∈ p, jsWs c = true))
    {cur : List Char} (hcur : (stripAnsi cur).length ≤ w ∨ cur ∈ P) :
    (stripAnsi (trimEndL cur)).length ≤ w ∨ trimEndL cur ∈ P := by
  rcases hcur with h | h
  · exact Or.inl (le_trans (stripAnsi_trimEndL_le cur) h)
  · rcases hP cur h with hno | hall
    · right; rw [trimEndL_of_noWs hno]; exact h
    · left; rw [trimEndL_of_allWs hall, stripAnsi_nil]; simp

theorem wrapGo_inv {w : Nat} {P : List (List Char)}
    (hP : ∀ p ∈ P, (∀ c ∈ p, jsWs c = false) ∨ (∀ c ∈ p, jsWs c = true)) :
    ∀ (L : List (List Char)) (cur : List Char), (∀ p ∈ L, p ∈ P) →
      ((stripAnsi cur).length ≤ w ∨ cur ∈ P) →
      ∀ seg ∈ wrapGo w L cur, (stripAnsi seg).length ≤ w ∨ seg ∈ P := by
  intro L
  induction L with
  | nil =>
    intro cur hL hcur seg hseg
    simp only [wrapGo] at hseg
    split at hseg
    · rw [List.mem_singleton] at hseg
      subst hseg
      exact wrap_push_ok hP hcur
    · simp at hseg
  | cons p ps ih =>
    intro cur hL hcur seg hseg
    have hpP : p ∈ P := hL p (by simp)
    have hps : ∀ q ∈ ps, q ∈ P := fun q hq => hL q (by simp [hq])
    simp only [wrapGo] at hseg
    split at hseg
    · rename_i hcond
      split at hseg
      · rcases List.mem_cons.mp hseg with h1 | h1
        · subst h1; exact wrap_push_ok hP hcur
        · exact ih [] hps (Or.inl (by rw [stripAnsi_nil]; simp)) seg h1
      · rcases List.mem_cons.mp hseg with h1 | h1
        · subst h1; exact wrap_push_ok hP hcur
        · exact ih p hps (Or.inr hpP) seg h1
    · rename_i hcond
      refine ih (cur ++ p) hps ?_ seg hseg
      by_cases hc : cur = []
      · subst hc
        exact Or.inr (by simpa using hpP)
      · left
        have hsum : (stripAnsi cur).length + (stripAnsi p).length ≤ w := by
          rcases Nat.lt_or_ge w ((stripAnsi cur).length + (stripAnsi p).length) with h | h
          · exact absurd ⟨h, hc⟩ hcond
          · exact h
        exact le_trans (stripAnsi_append_le cur p) hsum

/-- C6: for every input line and maximum width, every segment produced by the
text wrapper has visible length (length after stripping ANSI escape
sequences) at most the width, except that a segment wider than the width is
always a single atomic token of the whitespace split, emitted alone. -/
theorem wrapLine_segments_fit (text : List Char) (w : Nat) :
    ∀ seg ∈ wrapLine text w,
      (stripAnsi seg).length ≤ w ∨
        (w < (stripAnsi seg).length ∧ seg ∈ splitWs text) := by
  intro seg hseg
  have h := wrapGo_inv (splitWs_chunks text) (splitWs text) []
    (fun p hp => hp) (Or.inl (by rw [stripAnsi_nil]; simp)) seg hseg
  rcases h with h | h
  · exact Or.inl h
  · rcases Nat.lt_or_ge w (stripAnsi seg).length with hlt | hle
    · exact Or.inr ⟨hlt, h⟩
    · exact Or.inl hle

/-- Witness for `wrapLine_segments_fit`: a single 6-character word at
width 2 is emitted alone, overflowing. -/
theorem wrapLine_segments_fit_witness :
    "abcdef".data ∈ wrapLine "abcdef".data 2 ∧
      ((stripAnsi "abcdef".data).length ≤ 2 ∨
        (2 < (stripAnsi "abcdef".data).length ∧ "abcdef".data ∈ splitWs "abcdef".data)) :=
  ⟨by decide, wrapLine_segments_fit "abcdef".data 2 "abcdef".data (by decide)⟩

theorem takeWhile_append_all {p : Char → Bool} {x : List Char} (y : List Char)
    (h : ∀ c ∈ x, p c = true) : (x ++ y).takeWhile p = x ++ y.takeWhile p := by
  induction x with
  | nil => rfl
  | cons a t ih =>
    rw [List.cons_append, List.takeWhile_cons, h a (by simp), if_pos rfl,
      ih (fun c hc => h c (by simp [hc])), List.cons_append]

/-! ### normalizeSpaces

Source (part_002, lines 359-362): `line.replace(/\s{3,}/g, '   ')`.
The global replace rewrites each maximal whitespace run of length at least 3
to exactly three spaces and leaves shorter runs (and all other characters)
unchanged. -/

/-- Fuel-based scanner for `normalizeSpaces`. -/
def normSpF : Nat → List Char → List Char
  | 0, s => s
  | _ + 1, [] => []
  | f + 1, c :: rest =>
    if jsWs c then
      (if 3 ≤ ((c :: rest).takeWhile jsWs).length then [' ', ' ', ' ']
        else (c :: rest).takeWhile jsWs) ++ normSpF f ((c :: rest).dropWhile jsWs)
    else c :: normSpF f rest

/-- `normalizeSpaces` from the source. -/
def normalizeSpaces (s : List Char) : List Char := normSpF s.length s

theorem normSpF_irrel {f1 f2 : Nat} {s : List Char} (h1 : s.length ≤ f1)
    (h2 : s.length ≤ f2) : normSpF f1 s = normSpF f2 s := by
  induction f1 using Nat.strong_induction_on generalizing f2 s with
  | _ f1 ih =>
    match f1, s with
    | 0, s =>
      have hs : s = [] := by
        cases s with
        | nil => rfl
        | cons a t => simp at h1
      subst hs
      cases f2 <;> rfl
    | g + 1, [] => cases f2 <;> rfl
    | g + 1, c :: rest =>
      cases f2 with
      | zero => simp at h2
      | succ g2 =>
        simp only [normSpF]
        simp only [List.length_cons] at h1 h2
        cases hc : jsWs c with
        | true =>
          rw [if_pos rfl, if_pos rfl]
          have hdrop : ((c :: rest).dropWhile jsWs).length ≤ rest.length := by
            rw [List.dropWhile_cons, hc, if_pos rfl]
            exact dropWhile_len_le rest
          rw [@ih g (by omega) g2 ((c :: rest).dropWhile jsWs) (by omega) (by omega)]
        | false =>
          rw [if_neg (by simp), if_neg (by simp)]
          rw [@ih g (by omega) g2 rest (by omega) (by omega)]

theorem normSp_nil : normalizeSpaces [] = [] := rfl

theorem normSp_keep {c : Char} {rest : List Char} (hc : jsWs c = false) :
    normalizeSpaces (c :: rest) = c :: normalizeSpaces rest := by
  simp only [normalizeSpaces, List.length_cons, normSpF]
  rw [if_neg (by simp [hc])]

theorem normSp_ws {c : Char} {rest : List Char} (hc : jsWs c = true) :
    normalizeSpaces (c :: rest) =
      (if 3 ≤ ((c :: rest).takeWhile jsWs).length then [' ', ' ', ' ']
        else (c :: rest).takeWhile jsWs) ++
        normalizeSpaces ((c :: rest).dropWhile jsWs) := by
  have hdrop : ((c :: rest).dropWhile jsWs).length ≤ rest.length := by
    rw [List.dropWhile_cons, hc, if_pos rfl]
    exact dropWhile_len_le rest
  simp only [normalizeSpaces, List.length_cons, normSpF]
  rw [if_pos hc]
  rw [normSpF_irrel (by omega) (Nat.le_refl _)]

theorem takeWhile_nil_of_shape {l : List Char}
    (h : l = [] ∨ ∃ h0 t, l = h0 :: t ∧ jsWs h0 = false) :
    l.takeWhile jsWs = [] ∧ l.dropWhile jsWs = l := by
  rcases h with h | ⟨h0, t, hl, hws⟩
  · subst h; exact ⟨rfl, rfl⟩
  · subst hl
    constructor
    · rw [List.takeWhile_cons, hws]; simp
    · rw [List.dropWhile_cons, hws]; simp

theorem dropWhile_shape (l : List Char) :
    l.dropWhile jsWs = [] ∨ ∃ h0 t, l.dropWhile jsWs = h0 :: t ∧ jsWs h0 = false := by
  cases hd : l.dropWhile jsWs with
  | nil => left; rfl
  | cons h0 t => right; exact ⟨h0, t, rfl, dropWhile_head_not hd⟩

theorem normSp_shape {l : List Char}
    (h : l = [] ∨ ∃ h0 t, l = h0 :: t ∧ jsWs h0 = false) :
    normalizeSpaces l = [] ∨
      ∃ h0 t, normalizeSpaces l = h0 :: t ∧ jsWs h0 = false := by
  rcases h with h | ⟨h0, t, hl, hws⟩
  · subst h; left; rfl
  · subst hl; right; exact ⟨h0, normalizeSpaces t, normSp_keep hws, hws⟩

theorem normSp_ws_block {R N2 : List Char} (hne : R ≠ [])
    (hR : ∀ ch ∈ R, jsWs ch = true)
    (hN : N2 = [] ∨ ∃ h0 t, N2 = h0 :: t ∧ jsWs h0 = false) :
    normalizeSpaces (R ++ N2) =
      (if 3 ≤ R.length then [' ', ' ', ' '] else R) ++ normalizeSpaces N2 := by
  match R, hne with
  | r0 :: Rt, _ =>
    have hr0 : jsWs r0 = true := hR r0 (by simp)
    have hW := takeWhile_nil_of_shape hN
    have htake : (r0 :: (Rt ++ N2)).takeWhile jsWs = r0 :: Rt := by
      rw [← List.cons_append, takeWhile_append_all N2 hR, hW.1, List.append_nil]
    have hdrop : (r0 :: (Rt ++ N2)).dropWhile jsWs = N2 := by
      rw [← List.cons_append, dropWhile_append_all N2 hR, hW.2]
    rw [List.cons_append, normSp_ws hr0, htake, hdrop]

theorem dropWhile_len_le_ws {c : Char} (rest : List Char) (hc : jsWs c = true) :
    ((c :: rest).dropWhile jsWs).length ≤ rest.length := by
  rw [List.dropWhile_cons, hc, if_pos rfl]
  exact dropWhile_len_le rest

theorem normalizeSpaces_idem_aux : ∀ (n : Nat) (s : List Char), s.length ≤ n →
    normalizeSpaces (normalizeSpaces s) = normalizeSpaces s := by
  intro n
  induction n using Nat.strong_induction_on with
  | _ n ih =>
    intro s hn
    match s with
    | [] => rw [normSp_nil, normSp_nil]
    | c :: rest =>
      simp only [List.length_cons] at hn
      cases hc : jsWs c with
      | false =>
        rw [normSp_keep hc, normSp_keep hc, ih rest.length (by omega) rest (Nat.le_refl _)]
      | true =>
        have hrun_ne : (c :: rest).takeWhile jsWs ≠ [] := by
          rw [List.takeWhile_cons, hc]; simp
        have hrun_ws : ∀ ch ∈ (c :: rest).takeWhile jsWs, jsWs ch = true :=
          fun ch h => List.mem_takeWhile_imp h
        have hshape := normSp_shape (dropWhile_shape (c :: rest))
        have hlen2 := dropWhile_len_le_ws rest hc
        by_cases h3 : 3 ≤ ((c :: rest).takeWhile jsWs).length
        · rw [normSp_ws hc, if_pos h3]
          rw [normSp_ws_block (by simp) (by intro ch h; simp at h; subst h; decide) hshape]
          rw [if_pos (by simp)]
          rw [ih ((c :: rest).dropWhile jsWs).length (by omega) _ (Nat.le_refl _)]
        · rw [normSp_ws hc, if_neg h3]
          rw [normSp_ws_block hrun_ne hrun_ws hshape]
          rw [if_neg h3]
          rw [ih ((c :: rest).dropWhile jsWs).length (by omega) _ (Nat.le_refl _)]

theorem normSp_noRun_aux : ∀ (n : Nat) (s : List Char), s.length ≤ n →
    ∀ x r y, normalizeSpaces s = x ++ (r ++ y) → (∀ c ∈ r, jsWs c = true) →
      r.length ≤ 3 := by
  intro n
  induction n using Nat.strong_induction_on with
  | _ n ih =>
    intro s hn x r y hdec hrws
    match s with
    | [] =>
      rw [normSp_nil] at hdec
      have hx := List.append_eq_nil.mp hdec.symm
      have hr := List.append_eq_nil.mp hx.2
      rw [hr.1]; simp
    | c :: rest =>
      simp only [List.length_cons] at hn
      cases hc : jsWs c with
      | false =>
        rw [normSp_keep hc] at hdec
        match x, hdec with
        | [], hdec =>
          match r, hdec with
          | [], _ => simp
          | r0 :: r', hdec =>
            rw [List.nil_append, List.cons_append] at hdec
            obtain ⟨h1, -⟩ := List.cons_eq_cons.mp hdec
            have := hrws r0 (by simp)
            rw [← h1, hc] at this
            simp at this
        | x0 :: x', hdec =>
          rw [List.cons_append] at hdec
          obtain ⟨-, h2⟩ := List.cons_eq_cons.mp hdec
          exact ih rest.length (by omega) rest (Nat.le_refl _) x' r y h2 hrws
      | true =>
        have hshape := normSp_shape (dropWhile_shape (c :: rest))
        have hlen2 := dropWhile_len_le_ws rest hc
        rw [normSp_ws hc] at hdec
        have hR0len : ((if 3 ≤ ((c :: rest).takeWhile jsWs).length then [' ', ' ', ' ']
            else (c :: rest).takeWhile jsWs) : List Char).length ≤ 3 := by
          split
          · simp
          · rename_i h3; omega
        rcases List.append_eq_append_iff.mp hdec with ⟨a2, hx, hN2⟩ | ⟨c2, hR0, hry⟩
        · exact ih ((c :: rest).dropWhile jsWs).length (by omega) _ (Nat.le_refl _)
            a2 r y hN2 hrws
        · have hc2len : c2.length ≤ 3 := by
            have hL := congrArg List.length hR0
            simp only [List.length_append] at hL
            omega
          rcases List.append_eq_append_iff.mp hry with ⟨a3, hc2e, hy⟩ | ⟨d2, hr, hN2⟩
          · have hL := congrArg List.length hc2e
            simp only [List.length_append] at hL
            omega
          · match d2, hN2 with
            | [], _ =>
              have hL := congrArg List.length hr
              simp only [List.length_append, List.length_nil] at hL
              omega
            | h0 :: t0, hN2 =>
              exfalso
              rcases hshape with hnil | ⟨h1, t1, hsh, hws1⟩
              · rw [hnil] at hN2; simp at hN2
              · rw [hsh] at hN2
                rw [List.cons_append] at hN2
                obtain ⟨he, -⟩ := List.cons_eq_cons.mp hN2
                have hmem : h0 ∈ r := by rw [hr]; simp
                have hcontra := hrws h0 hmem
                rw [he] at hws1
                rw [hws1] at hcontra
                simp at hcontra

/-- C10: the whitespace normalization used on context lines is idempotent,
and its output contains no whitespace run longer than 3 characters. -/
theorem normalizeSpaces_idem_noLongRuns (s : List Char) :
    normalizeSpaces (normalizeSpaces s) = normalizeSpaces s ∧
      ∀ x r y, normalizeSpaces s = x ++ (r ++ y) →
        (∀ c ∈ r, jsWs c = true) → r.length ≤ 3 :=
  ⟨normalizeSpaces_idem_aux s.length s (Nat.le_refl _),
    normSp_noRun_aux s.length s (Nat.le_refl _)⟩

/-- Witness for `normalizeSpaces_idem_noLongRuns`: a run of four tabs
collapses to three spaces, a whitespace run of length 3. -/
theorem normalizeSpaces_idem_noLongRuns_witness :
    normalizeSpaces "a\t\t\t\tb".data = ['a'] ++ ([' ', ' ', ' '] ++ ['b']) ∧
      (∀ c ∈ ([' ', ' ', ' '] : List Char), jsWs c = true) ∧
      ([' ', ' ', ' '] : List Char).length ≤ 3 :=
  ⟨by decide, by decide,
    (normalizeSpaces_idem_noLongRuns "a\t\t\t\tb".data).2 ['a'] [' ', ' ', ' '] ['b']
      (by decide) (by decide)⟩

/-! ### findContextInFile

Source (part_002, lines 297-316): split the content on newlines, and for each
line whose lower-cased text contains the lower-cased search term, push a
window with the 1-based line number, the `slice(max(0, i - k),
min(len, i + k + 1))` context, and the match offset `i - start`. -/

/-- Fuel-based splitter for `content.split('\n')`. -/
def splitNlF : Nat → List Char → List (List Char)
  | 0, s => [s]
  | f + 1, s =>
    match s.dropWhile (fun c => c != '\n') with
    | [] => [s.takeWhile (fun c => c != '\n')]
    | _ :: rest => s.takeWhile (fun c => c != '\n') :: splitNlF f rest

/-- `content.split('\n')` (never empty; splitting the empty string yields one
empty line). -/
def splitNl (s : List Char) : List (List Char) := splitNlF s.length s

/-- One context window produced by `findContextInFile`: 1-based matching line
number, surrounding context lines, and the index of the matching line inside
the context. -/
structure MatchWindow where
  lineNumber : Nat
  context : List (List Char)
  matchLine : Nat
deriving DecidableEq, Repr

/-- `lines[i].toLowerCase().includes(searchTerm.toLowerCase())`. -/
def lineMatches (term l : List Char) : Bool :=
  containsSub (toLowerL l) (toLowerL term)

/-- The scanning loop of `findContextInFile`: `i` is the current index,
`rem` the remaining lines (`lines.drop i`). -/
def findCtxLoop (term : List Char) (lines : List (List Char)) (k : Nat) :
    Nat → List (List Char) → List MatchWindow
  | _, [] => []
  | i, l :: rest =>
    if lineMatches term l then
      MatchWindow.mk (i + 1)
        ((lines.drop (i - k)).take (min lines.length (i + k + 1) - (i - k)))
        (i - (i - k)) :: findCtxLoop term lines k (i + 1) rest
    else findCtxLoop term lines k (i + 1) rest

/-- `findContextInFile` from the source (context size is the caller-supplied
`contextLines`, default 5 at the call sites). -/
def findContextInFile (content searchTerm : List Char) (contextLines : Nat) :
    List MatchWindow :=
  findCtxLoop searchTerm (splitNl content) contextLines 0 (splitNl content)

theorem findCtxLoop_length (term : List Char) (lines : List (List Char)) (k : Nat) :
    ∀ (rem : List (List Char)) (i : Nat),
      (findCtxLoop term lines k i rem).length = rem.countP (lineMatches term) := by
  intro rem
  induction rem with
  | nil => intro i; rfl
  | cons l rest ih =>
    intro i
    simp only [findCtxLoop, List.countP_cons]
    cases hm : lineMatches term l with
    | true =>
      rw [if_pos rfl, if_pos rfl]
      simp only [List.length_cons, ih (i + 1)]
    | false =>
      rw [if_neg (by simp), if_neg (by simp)]
      simp only [ih (i + 1)]
      simp

theorem findCtxLoop_lineNumbers (term : List Char) (lines : List (List Char)) (k : Nat) :
    ∀ (rem : List (List Char)) (i : Nat),
      ((findCtxLoop term lines k i rem).map MatchWindow.lineNumber).Pairwise (· < ·) ∧
        ∀ w ∈ findCtxLoop term lines k i rem, i + 1 ≤ w.lineNumber := by
  intro rem
  induction rem with
  | nil => intro i; exact ⟨List.Pairwise.nil, by intro w hw; simp [findCtxLoop] at hw⟩
  | cons l rest ih =>
    intro i
    simp only [findCtxLoop]
    cases hm : lineMatches term l with
    | true =>
      rw [if_pos rfl]
      constructor
      · simp only [List.map_cons]
        refine List.Pairwise.cons ?_ (ih (i + 1)).1
        intro b hb
        rw [List.mem_map] at hb
        obtain ⟨w, hw, hwb⟩ := hb
        have := (ih (i + 1)).2 w hw
        omega
      · intro w hw
        rcases List.mem_cons.mp hw with h1 | h1
        · subst h1; simp
        · have := (ih (i + 1)).2 w h1
          omega
    | false =>
      rw [if_neg (by simp)]
      refine ⟨(ih (i + 1)).1, ?_⟩
      intro w hw
      have := (ih (i + 1)).2 w hw
      omega

/-- C3: for every file text and non-empty search term, the context matcher
returns exactly one window per line containing the term (case-insensitively),
in file order with strictly increasing (hence never merged) line numbers; in
particular `"ab\nab\n"` with term `"ab"` yields exactly 2 windows with match
line numbers 1 and 2. -/
theorem findContext_one_window_per_matching_line :
    (∀ (content term : List Char) (k : Nat), term ≠ [] →
      (findContextInFile content term k).length =
          (splitNl content).countP (lineMatches term) ∧
        ((findContextInFile content term k).map MatchWindow.lineNumber).Pairwise
          (· < ·)) ∧
      (findContextInFile "ab\nab\n".data "ab".data 5).length = 2 ∧
      (findContextInFile "ab\nab\n".data "ab".data 5).map MatchWindow.lineNumber =
        [1, 2] := by
  refine ⟨fun content term k _ => ⟨?_, ?_⟩, by decide, by decide⟩
  · exact findCtxLoop_length term (splitNl content) k (splitNl content) 0
  · exact (findCtxLoop_lineNumbers term (splitNl content) k (splitNl content) 0).1

/-- Witness for `findContext_one_window_per_matching_line` at the concrete
example from the specification. -/
theorem findContext_one_window_per_matching_line_witness :
    ("ab".data ≠ ([] : List Char)) ∧
      ((findContextInFile "ab\nab\n".data "ab".data 5).length =
          (splitNl "ab\nab\n".data).countP (lineMatches "ab".data) ∧
        ((findContextInFile "ab\nab\n".data "ab".data 5).map
            MatchWindow.lineNumber).Pairwise (· < ·)) :=
  ⟨by decide,
    findContext_one_window_per_matching_line.1 "ab\nab\n".data "ab".data 5 (by decide)⟩

theorem containsSub_nil_right (s : List Char) : containsSub s [] = true := by
  cases s with
  | nil => rfl
  | cons a t => rfl

theorem lineMatches_nil_of_ne {term : List Char} (h : term ≠ []) :
    lineMatches term [] = false := by
  match term, h with
  | c :: t, _ =>
    simp [lineMatches, containsSub, toLowerL, startsWithL]

/-- C4 counterexample: with both the search term and the file text empty, the
matcher returns one window (the empty line contains the empty term), not the
empty sequence the claim requires for an empty term. -/
theorem findContext_empty_counterexample :
    findContextInFile [] [] 5 = [MatchWindow.mk 1 [[]] 0] ∧
      findContextInFile [] [] 5 ≠ [] := ⟨by decide, by decide⟩

/-- C4 (amended): the matcher returns the empty sequence on empty file text
whenever the search term is non-empty; an empty search term instead matches
every line, yielding one window per line of the text. -/
theorem findContext_empty_inputs_amended :
    (∀ (term : List Char) (k : Nat), term ≠ [] → findContextInFile [] term k = []) ∧
      ∀ (content : List Char) (k : Nat),
        (findContextInFile content [] k).length = (splitNl content).length := by
  constructor
  · intro term k hterm
    show findCtxLoop term (splitNl []) k 0 (splitNl []) = []
    have h0 : splitNl [] = [[]] := rfl
    rw [h0]
    simp only [findCtxLoop]
    rw [if_neg (by simp [lineMatches_nil_of_ne hterm])]
  · intro content k
    show (findCtxLoop [] (splitNl content) k 0 (splitNl content)).length =
      (splitNl content).length
    rw [findCtxLoop_length]
    exact List.countP_eq_length.mpr
      (fun l _ => containsSub_nil_right (toLowerL l))

/-- Witness for `findContext_empty_inputs_amended`. -/
theorem findContext_empty_inputs_amended_witness :
    ("a".data ≠ ([] : List Char)) ∧ findContextInFile [] "a".data 5 = [] ∧
      (findContextInFile "x".data [] 5).length = (splitNl "x".data).length :=
  ⟨by decide, findContext_empty_inputs_amended.1 "a".data 5 (by decide),
    findContext_empty_inputs_amended.2 "x".data 5⟩

theorem findCtxLoop_inv (term : List Char) (lines : List (List Char)) (k : Nat) :
    ∀ (rem : List (List Char)) (i : Nat), rem = lines.drop i →
      ∀ w ∈ findCtxLoop term lines k i rem,
        w.matchLine < w.context.length ∧
        w.context[w.matchLine]? = lines[w.lineNumber - 1]? ∧
        ∃ l, lines[w.lineNumber - 1]? = some l ∧ lineMatches term l = true := by
  intro rem
  induction rem with
  | nil => intro i _ w hw; simp [findCtxLoop] at hw
  | cons l rest ih =>
    intro i hrem w hw
    have hi : i < lines.length := by
      by_contra hc
      push_neg at hc
      rw [List.drop_eq_nil_of_le hc] at hrem
      simp at hrem
    have hil : lines[i]? = some l := by
      have h0 : (lines.drop i)[0]? = some l := by rw [← hrem]; simp
      rw [List.getElem?_drop] at h0
      simpa using h0
    have hrest : rest = lines.drop (i + 1) := by
      have ht := congrArg List.tail hrem
      simp only [List.tail_cons] at ht
      rw [ht, List.tail_drop]
    simp only [findCtxLoop] at hw
    by_cases hm : lineMatches term l = true
    · rw [if_pos hm] at hw
      rcases List.mem_cons.mp hw with h1 | h1
      · subst h1
        refine ⟨?_, ?_, l, ?_, hm⟩
        · dsimp only
          rw [List.length_take, List.length_drop]
          omega
        · dsimp only
          rw [List.getElem?_take, if_pos (by omega), List.getElem?_drop,
            show (i - k) + (i - (i - k)) = i by omega]
          rw [show i + 1 - 1 = i by omega]
        · dsimp only
          rw [show i + 1 - 1 = i by omega]
          exact hil
      · exact ih (i + 1) hrest w h1
    · rw [if_neg hm] at hw
      exact ih (i + 1) hrest w hw

/-- C9: every window returned by the context matcher has its match offset in
range, the context line at that offset is exactly line `lineNumber` of the
text (1-based, splitting on newline), and that line contains the search term
case-insensitively. -/
theorem findContext_window_invariants (content term : List Char) (k : Nat)
    (hterm : term ≠ []) :
    ∀ w ∈ findContextInFile content term k,
      w.matchLine < w.context.length ∧
      w.context[w.matchLine]? = (splitNl content)[w.lineNumber - 1]? ∧
      ∃ l, (splitNl content)[w.lineNumber - 1]? = some l ∧
        lineMatches term l = true :=
  findCtxLoop_inv term (splitNl content) k (splitNl content) 0
    (List.drop_zero _).symm

/-- Witness for `findContext_window_invariants` on a 3-line file. -/
theorem findContext_window_invariants_witness :
    ("foo".data ≠ ([] : List Char)) ∧
      (MatchWindow.mk 2 ["x".data, "foo".data, "y".data] 1 ∈
        findContextInFile "x\nfoo\ny".data "foo".data 1) ∧
      ((MatchWindow.mk 2 ["x".data, "foo".data, "y".data] 1).matchLine <
          (MatchWindow.mk 2 ["x".data, "foo".data, "y".data] 1).context.length ∧
        (MatchWindow.mk 2 ["x".data, "foo".data, "y".data] 1).context[
            (MatchWindow.mk 2 ["x".data, "foo".data, "y".data] 1).matchLine]? =
          (splitNl "x\nfoo\ny".data)[
            (MatchWindow.mk 2 ["x".data, "foo".data, "y".data] 1).lineNumber - 1]? ∧
        ∃ l, (splitNl "x\nfoo\ny".data)[
            (MatchWindow.mk 2 ["x".data, "foo".data, "y".data] 1).lineNumber - 1]? =
              some l ∧
          lineMatches "foo".data l = true) :=
  ⟨by decide, by decide,
    findContext_window_invariants "x\nfoo\ny".data "foo".data 1 (by decide)
      (MatchWindow.mk 2 ["x".data, "foo".data, "y".data] 1) (by decide)⟩

/-! ### extractCredentials

Source (part_002, lines 167-196).  Two global case-insensitive regex scans:

  pattern 1: `<domain escaped>(?:/[^:]*)?:([^:\s]+):([^:\s\n]+)`
  pattern 2: `(?:https?://)?<domain escaped>(?:/[^|]*)?\|([^|\s]+)\|([^|\s\n]+)`

Both are deterministic: the optional path group is forced by whether the
character after the domain is `/` (the path may start only with `/`, and the
branch without the path requires `:` or `|` there, which is a different
character); the path `[^:]*` / `[^|]*` is a maximal run ending exactly at the
required delimiter; and the capture groups are maximal runs whose given-back
characters can never match the delimiter that follows.  A `g`-flag `exec`
loop visits the leftmost matches from left to right, restarting after each
match end, which is the same as advancing one character on a failed attempt.
The class `[^:\s\n]` equals `[^:\s]` because `\n ∈ \s`. -/

/-- `[^:\s]`. -/
def notColonWs (c : Char) : Bool := c != ':' && !jsWs c

/-- `[^|\s]`. -/
def notPipeWs (c : Char) : Bool := c != '|' && !jsWs c

/-- Case-insensitive literal match (the domain is regex-escaped in the
source, so it matches literally): consume `lit` from the front of `t`. -/
def stripLitCI : List Char → List Char → Option (List Char)
  | [], t => some t
  | _ :: _, [] => none
  | d :: ds, c :: cs =>
    if asciiLower d = asciiLower c then stripLitCI ds cs else none

/-- Does `s` start (case-insensitively) with `lit`? -/
def startsLitCI (lit s : List Char) : Bool := (stripLitCI lit s).isSome

/-- `(?:/[^X]*)?X` for delimiter `X`: optional path segment, then the
required delimiter; returns the text after the delimiter. -/
def pathThen (sep : Char) (r0 : List Char) : Option (List Char) :=
  match r0 with
  | [] => none
  | '/' :: rr =>
    (match rr.dropWhile (fun c => c != sep) with
      | c :: r2 => if c = sep then some r2 else none
      | [] => none)
  | c :: r2 => if c = sep then some r2 else none

/-- `([cls]+)X([cls]+)`: two non-empty maximal runs of `cls` characters
separated by the delimiter; returns them and the remaining text. -/
def grabPair (sep : Char) (cls : Char → Bool) (r2 : List Char) :
    Option (List Char × List Char × List Char) :=
  match r2.dropWhile cls with
  | c :: r4 =>
    if c = sep ∧ r2.takeWhile cls ≠ [] then
      if r4.takeWhile cls ≠ [] then
        some (r2.takeWhile cls, r4.takeWhile cls, r4.dropWhile cls)
      else none
    else none
  | [] => none

/-- One attempt of pattern 1 at the current position. -/
def matchP1At (domain text : List Char) :
    Option (List Char × List Char × List Char) :=
  match stripLitCI domain text with
  | none => none
  | some r0 =>
    match pathThen ':' r0 with
    | none => none
    | some r2 => grabPair ':' notColonWs r2

/-- Pattern 2 after the optional protocol. -/
def matchP2Core (domain t : List Char) :
    Option (List Char × List Char × List Char) :=
  match stripLitCI domain t with
  | none => none
  | some r0 =>
    match pathThen '|' r0 with
    | none => none
    | some r2 => grabPair '|' notPipeWs r2

/-- One attempt of pattern 2 at the current position: the optional
`https?://` is tried with the protocol first (longest alternative first),
falling back to matching the domain at the same position. -/
def matchP2At (domain text : List Char) :
    Option (List Char × List Char × List Char) :=
  if startsLitCI "https://".data text then
    match matchP2Core domain (text.drop 8) with
    | some r => some r
    | none => matchP2Core domain text
  else if startsLitCI "http://".data text then
    match matchP2Core domain (text.drop 7) with
    | some r => some r
    | none => matchP2Core domain text
  else matchP2Core domain text

/-- The `exec` loop of a `g`-flag regex: collect the captures of all
leftmost non-overlapping matches, advancing one character after a failed
attempt (every match here consumes at least one character, so fuel
`text.length + 1` is sufficient). -/
def scanCreds (matchAt : List Char → Option (List Char × List Char × List Char)) :
    Nat → List Char → List (List Char × List Char)
  | 0, _ => []
  | f + 1, text =>
    match matchAt text with
    | some (u, p, rest) => (u, p) :: scanCreds matchAt f rest
    | none =>
      match text with
      | [] => []
      | _ :: t => scanCreds matchAt f t

/-- All pattern-1 matches of the text. -/
def scanP1 (domain text : List Char) : List (List Char × List Char) :=
  scanCreds (matchP1At domain) (text.length + 1) text

/-- All pattern-2 matches of the text. -/
def scanP2 (domain text : List Char) : List (List Char × List Char) :=
  scanCreds (matchP2At domain) (text.length + 1) text

/-- `username.trim()`/`password.trim()` and the non-emptiness check, then the
canonical combined string. -/
def credOf (up : List Char × List Char) : Option (List Char) :=
  if trimL up.1 ≠ [] ∧ trimL up.2 ≠ [] then
    some (trimL up.1 ++ ':' :: trimL up.2)
  else none

/-- JavaScript `Set` insertion-order deduplication (keep first occurrence). -/
def dedupAux (seen : List (List Char)) : List (List Char) → List (List Char)
  | [] => []
  | x :: xs => if x ∈ seen then dedupAux seen xs else x :: dedupAux (x :: seen) xs

/-- `extractCredentials` from the source: the deduplicated
`username:password` strings of both pattern scans, in insertion order. -/
def extractCredentials (text domain : List Char) : List (List Char) :=
  dedupAux []
    ((scanP1 domain text).filterMap credOf ++ (scanP2 domain text).filterMap credOf)

theorem dedupAux_nodup : ∀ (l seen : List (List Char)),
    (dedupAux seen l).Nodup ∧ ∀ x ∈ dedupAux seen l, x ∉ seen := by
  intro l
  induction l with
  | nil => intro seen; exact ⟨List.nodup_nil, by simp [dedupAux]⟩
  | cons x xs ih =>
    intro seen
    simp only [dedupAux]
    by_cases hx : x ∈ seen
    · rw [if_pos hx]
      exact ih seen
    · rw [if_neg hx]
      obtain ⟨hnd, hmem⟩ := ih (x :: seen)
      refine ⟨List.Nodup.cons ?_ hnd, ?_⟩
      · intro hxin
        exact hmem x hxin (by simp)
      · intro y hy
        rcases List.mem_cons.mp hy with h1 | h1
        · subst h1; exact hx
        · intro hys
          exact hmem y h1 (by simp [hys])

theorem dedupAux_mem : ∀ (l seen : List (List Char)) (x : List Char),
    x ∈ dedupAux seen l → x ∈ l := by
  intro l
  induction l with
  | nil => intro seen x hx; simp [dedupAux] at hx
  | cons a xs ih =>
    intro seen x hx
    simp only [dedupAux] at hx
    by_cases ha : a ∈ seen
    · rw [if_pos ha] at hx
      exact List.mem_cons_of_mem a (ih seen x hx)
    · rw [if_neg ha] at hx
      rcases List.mem_cons.mp hx with h1 | h1
      · subst h1; simp
      · exact List.mem_cons_of_mem a (ih (a :: seen) x h1)

theorem dedupAux_mem_iff : ∀ (l seen : List (List Char)) (x : List Char),
    x ∈ dedupAux seen l ↔ x ∈ l ∧ x ∉ seen := by
  intro l
  induction l with
  | nil => intro seen x; simp [dedupAux]
  | cons a xs ih =>
    intro seen x
    simp only [dedupAux]
    by_cases ha : a ∈ seen
    · rw [if_pos ha, ih seen x]
      constructor
      · rintro ⟨h1, h2⟩
        exact ⟨List.mem_cons_of_mem a h1, h2⟩
      · rintro ⟨h1, h2⟩
        rcases List.mem_cons.mp h1 with h3 | h3
        · subst h3; exact absurd ha h2
        · exact ⟨h3, h2⟩
    · rw [if_neg ha]
      constructor
      · intro h1
        rcases List.mem_cons.mp h1 with h3 | h3
        · subst h3; exact ⟨by simp, ha⟩
        · obtain ⟨h4, h5⟩ := (ih (a :: seen) x).mp h3
          exact ⟨List.mem_cons_of_mem a h4,
            fun hxs => h5 (List.mem_cons_of_mem a hxs)⟩
      · rintro ⟨h1, h2⟩
        rcases List.mem_cons.mp h1 with h3 | h3
        · subst h3; simp
        · by_cases hxa : x = a
          · subst hxa; simp
          · refine List.mem_cons_of_mem a ((ih (a :: seen) x).mpr ⟨h3, ?_⟩)
            intro hmem
            rcases List.mem_cons.mp hmem with h4 | h4
            · exact hxa h4
            · exact h2 h4

theorem dedupAux_toFinset (l seen : List (List Char)) :
    (dedupAux seen l).toFinset = l.toFinset \ seen.toFinset := by
  ext y
  simp only [List.mem_toFinset, Finset.mem_sdiff, dedupAux_mem_iff]

/-- C1: for every raw text and domain, the credential extractor returns the
set of distinct `username:password` strings found by the two literal
patterns, case-insensitively over the whole text (the deduplicated union of
both scans); in particular the two specification examples hold. -/
theorem extractCredentials_spec :
    (∀ text domain : List Char,
      (extractCredentials text domain).toFinset =
          ((scanP1 domain text).filterMap credOf).toFinset ∪
            ((scanP2 domain text).filterMap credOf).toFinset ∧
        (extractCredentials text domain).Nodup) ∧
      extractCredentials "example.com:alice:secret1\n".data "example.com".data =
        ["alice:secret1".data] ∧
      extractCredentials "https://example.com/login|bob|pw2".data
          "example.com".data =
        ["bob:pw2".data] := by
  refine ⟨fun text domain => ⟨?_, (dedupAux_nodup _ []).1⟩, by decide, by decide⟩
  rw [show extractCredentials text domain = dedupAux []
    ((scanP1 domain text).filterMap credOf ++ (scanP2 domain text).filterMap credOf)
    from rfl]
  rw [dedupAux_toFinset, List.toFinset_append]
  simp

/-! ### generateCombolist batch loop

Source (part_002, lines 238-295).  The fetch of each record's preview text is
the external collaborator; it is modelled as a pre-determined outcome per
record. -/

/-- Outcome of fetching one record's preview text. -/
inductive FetchResult where
  | ok : List Char → FetchResult
  | err : List Char → FetchResult
deriving DecidableEq, Repr

/-- The quota-exhaustion test (line 258):
`error.message.includes('403') || ...('429') || ...('limit')`. -/
def isQuotaError (msg : List Char) : Bool :=
  containsSub msg "403".data || containsSub msg "429".data ||
    containsSub msg "limit".data

def isFetchErr : FetchResult → Bool
  | FetchResult.ok _ => false
  | FetchResult.err _ => true

def isQuotaFail : FetchResult → Bool
  | FetchResult.ok _ => false
  | FetchResult.err msg => isQuotaError msg

/-- The mutable loop state (lines 238-241). -/
structure BatchState where
  creds : List (List Char)
  processed : Nat
  errors : Nat
  apiExhausted : Bool
deriving DecidableEq, Repr

def initBatch : BatchState := BatchState.mk [] 0 0 false

/-- `Set.prototype.add` on the insertion-ordered credential set. -/
def setAdd (acc : List (List Char)) (x : List Char) : List (List Char) :=
  if x ∈ acc then acc else acc ++ [x]

/-- `credentials.forEach(cred => allCredentials.add(cred))`. -/
def addAll (acc : List (List Char)) (l : List (List Char)) : List (List Char) :=
  l.foldl setAdd acc

/-- The `for (const record of recordsToProcess)` loop (lines 243-266):
increment `processed` and accumulate extracted credentials on success; on a
failure increment `errors` and either break with `apiExhausted = true` on a
quota-exhaustion message or continue with the next record. -/
def processRecords (domain : List Char) : List FetchResult → BatchState → BatchState
  | [], st => st
  | r :: rs, st =>
    match r with
    | FetchResult.ok content =>
      processRecords domain rs
        (BatchState.mk (addAll st.creds (extractCredentials content domain))
          (st.processed + 1) st.errors st.apiExhausted)
    | FetchResult.err msg =>
      if isQuotaError msg then
        BatchState.mk st.creds (st.processed + 1) (st.errors + 1) true
      else
        processRecords domain rs
          (BatchState.mk st.creds (st.processed + 1) (st.errors + 1)
            st.apiExhausted)

/-- Credentials accumulated from the successfully fetched records of `l`. -/
def credsFrom (domain : List Char) (l : List FetchResult)
    (acc : List (List Char)) : List (List Char) :=
  l.foldl
    (fun a r =>
      match r with
      | FetchResult.ok content => addAll a (extractCredentials content domain)
      | FetchResult.err _ => a) acc

theorem processRecords_no_quota (domain : List Char) :
    ∀ (l : List FetchResult) (st : BatchState),
      (∀ r ∈ l, isQuotaFail r = false) →
      processRecords domain l st =
        BatchState.mk (credsFrom domain l st.creds)
          (st.processed + l.length) (st.errors + l.countP isFetchErr)
          st.apiExhausted := by
  intro l
  induction l with
  | nil => intro st _; simp [processRecords, credsFrom]
  | cons r rs ih =>
    intro st h
    match r with
    | FetchResult.ok content =>
      simp only [processRecords]
      rw [ih _ (fun x hx => h x (by simp [hx]))]
      have hcf : credsFrom domain (FetchResult.ok content :: rs) st.creds =
          credsFrom domain rs (addAll st.creds (extractCredentials content domain)) :=
        rfl
      rw [hcf]
      simp [List.countP_cons, isFetchErr, BatchState.mk.injEq]
      all_goals omega
    | FetchResult.err msg =>
      have hq : isQuotaError msg = false := by
        have h2 := h (FetchResult.err msg) (by simp)
        simpa [isQuotaFail] using h2
      simp only [processRecords]
      rw [if_neg (by simp [hq])]
      rw [ih _ (fun x hx => h x (by simp [hx]))]
      have hcf : credsFrom domain (FetchResult.err msg :: rs) st.creds =
          credsFrom domain rs st.creds := rfl
      rw [hcf]
      simp [List.countP_cons, isFetchErr, BatchState.mk.injEq]
      all_goals omega

theorem processRecords_append (domain : List Char) :
    ∀ (l1 l2 : List FetchResult) (st : BatchState),
      (∀ r ∈ l1, isQuotaFail r = false) →
      processRecords domain (l1 ++ l2) st =
        processRecords domain l2 (processRecords domain l1 st) := by
  intro l1
  induction l1 with
  | nil => intro l2 st _; rfl
  | cons r rs ih =>
    intro l2 st h
    match r with
    | FetchResult.ok content =>
      simp only [List.cons_append, processRecords]
      exact ih l2 _ (fun x hx => h x (by simp [hx]))
    | FetchResult.err msg =>
      have hq : isQuotaError msg = false := by
        have h2 := h (FetchResult.err msg) (by simp)
        simpa [isQuotaFail] using h2
      simp only [List.cons_append, processRecords]
      rw [if_neg (by simp [hq]), if_neg (by simp [hq])]
      exact ih l2 _ (fun x hx => h x (by simp [hx]))

theorem processRecords_stop (domain : List Char) :
    ∀ (pre : List FetchResult) (msg : List Char) (rest : List FetchResult)
      (st : BatchState), (∀ r ∈ pre, isQuotaFail r = false) →
      isQuotaError msg = true →
      processRecords domain (pre ++ FetchResult.err msg :: rest) st =
        processRecords domain (pre ++ [FetchResult.err msg]) st := by
  intro pre msg rest st h hq
  rw [processRecords_append domain pre _ st h,
    processRecords_append domain pre _ st h]
  simp only [processRecords]
  rw [if_pos hq, if_pos hq]

theorem processRecords_stop_state (domain : List Char) :
    ∀ (pre : List FetchResult) (msg : List Char) (st : BatchState),
      (∀ r ∈ pre, isQuotaFail r = false) → isQuotaError msg = true →
      processRecords domain (pre ++ [FetchResult.err msg]) st =
        BatchState.mk (credsFrom domain pre st.creds)
          (st.processed + pre.length + 1)
          (st.errors + pre.countP isFetchErr + 1) true := by
  intro pre msg st h hq
  rw [processRecords_append domain pre _ st h,
    processRecords_no_quota domain pre st h]
  simp only [processRecords]
  rw [if_pos hq]

/-- C7: in the combolist batch loop, a fetch failure whose message signals
quota exhaustion (contains `403`, `429` or `limit`) stops processing
immediately — the final state does not depend on any record after it — with
`apiExhausted` set, `processed = pre.length + 1` (so the `processed - 1`
reported on stop counts the records attempted before the failing one, and
`processed - errors` the successfully completed ones), and the credentials
accumulated from all successfully processed records preserved; any other
fetch failure is only counted and the loop continues, processing the whole
list. -/
theorem generateCombolist_batch_loop :
    (∀ (domain : List Char) (pre : List FetchResult) (msg : List Char)
        (rest : List FetchResult),
      (∀ r ∈ pre, isQuotaFail r = false) → isQuotaError msg = true →
      processRecords domain (pre ++ FetchResult.err msg :: rest) initBatch =
          processRecords domain (pre ++ [FetchResult.err msg]) initBatch ∧
        processRecords domain (pre ++ FetchResult.err msg :: rest) initBatch =
          BatchState.mk (credsFrom domain pre []) (pre.length + 1)
            (pre.countP isFetchErr + 1) true) ∧
      ∀ (domain : List Char) (l : List FetchResult),
        (∀ r ∈ l, isQuotaFail r = false) →
        processRecords domain l initBatch =
          BatchState.mk (credsFrom domain l []) l.length (l.countP isFetchErr)
            false := by
  constructor
  · intro domain pre msg rest h hq
    refine ⟨processRecords_stop domain pre msg rest initBatch h hq, ?_⟩
    rw [processRecords_stop domain pre msg rest initBatch h hq,
      processRecords_stop_state domain pre msg initBatch h hq]
    simp [initBatch]
  · intro domain l h
    rw [processRecords_no_quota domain l initBatch h]
    simp [initBatch]

/-- Witness for `generateCombolist_batch_loop`: one success, one ordinary
failure, then a quota failure; the trailing record is never consulted. -/
theorem generateCombolist_batch_loop_witness :
    (∀ r ∈ [FetchResult.ok "x".data, FetchResult.err "boom".data],
        isQuotaFail r = false) ∧
      isQuotaError "429 Too Many Requests".data = true ∧
      (processRecords "d".data
            ([FetchResult.ok "x".data, FetchResult.err "boom".data] ++
              FetchResult.err "429 Too Many Requests".data ::
                [FetchResult.ok "y".data]) initBatch =
          processRecords "d".data
            ([FetchResult.ok "x".data, FetchResult.err "boom".data] ++
              [FetchResult.err "429 Too Many Requests".data]) initBatch ∧
        processRecords "d".data
            ([FetchResult.ok "x".data, FetchResult.err "boom".data] ++
              FetchResult.err "429 Too Many Requests".data ::
                [FetchResult.ok "y".data]) initBatch =
          BatchState.mk
            (credsFrom "d".data
              [FetchResult.ok "x".data, FetchResult.err "boom".data] [])
            ([FetchResult.ok "x".data, FetchResult.err "boom".data].length + 1)
            ([FetchResult.ok "x".data,
                FetchResult.err "boom".data].countP isFetchErr + 1) true) :=
  ⟨by decide, by decide,
    generateCombolist_batch_loop.1 "d".data
      [FetchResult.ok "x".data, FetchResult.err "boom".data]
      "429 Too Many Requests".data [FetchResult.ok "y".data]
      (by decide) (by decide)⟩

/-! ### The persisted combolist (lines 274-288)

`Array.from(allCredentials).sort()` sorts by JavaScript's default string
comparison: lexicographic on UTF-16 code units.  The sorted array is joined
with newlines and a trailing newline is appended. -/

/-- UTF-16 code units of a string. -/
def utf16Key : List Char → List Nat
  | [] => []
  | c :: t =>
    (if c.toNat < 65536 then [c.toNat]
      else [55296 + (c.toNat - 65536) / 1024, 56320 + (c.toNat - 65536) % 1024]) ++
      utf16Key t

/-- Lexicographic comparison of code-unit sequences (JavaScript `<=` on
strings). -/
def keyLe : List Nat → List Nat → Bool
  | [], _ => true
  | _ :: _, [] => false
  | a :: as, b :: bs => if a < b then true else if b < a then false else keyLe as bs

/-- The sort order of the persisted combolist. -/
def credLE (a b : List Char) : Prop := keyLe (utf16Key a) (utf16Key b) = true

instance : DecidableRel credLE := fun a b =>
  inferInstanceAs (Decidable (keyLe (utf16Key a) (utf16Key b) = true))

theorem keyLe_total : ∀ x y : List Nat, keyLe x y = true ∨ keyLe y x = true := by
  intro x
  induction x with
  | nil => intro y; left; rfl
  | cons a as ih =>
    intro y
    match y with
    | [] => right; rfl
    | b :: bs =>
      simp only [keyLe]
      rcases Nat.lt_trichotomy a b with h | h | h
      · left; rw [if_pos h]
      · subst h
        rcases ih bs with h2 | h2
        · left; rw [if_neg (by omega), if_neg (by omega)]; exact h2
        · right; rw [if_neg (by omega), if_neg (by omega)]; exact h2
      · right; rw [if_pos h]

theorem keyLe_cons_iff {a b : Nat} {as bs : List Nat} :
    keyLe (a :: as) (b :: bs) = true ↔ a < b ∨ (a = b ∧ keyLe as bs = true) := by
  simp only [keyLe]
  rcases Nat.lt_trichotomy a b with h | h | h
  · rw [if_pos h]; simp [h]
  · subst h
    rw [if_neg (by omega), if_neg (by omega)]
    simp
  · rw [if_neg (by omega), if_pos h]
    constructor
    · intro hc; exact absurd hc (by simp)
    · rintro (h2 | ⟨h2, -⟩)
      · exact absurd h2 (by omega)
      · exact absurd h2 (by omega)

theorem keyLe_trans : ∀ x y z : List Nat,
    keyLe x y = true → keyLe y z = true → keyLe x z = true := by
  intro x
  induction x with
  | nil => intro y z _ _; rfl
  | cons a as ih =>
    intro y z h1 h2
    match y, z with
    | [], _ => simp [keyLe] at h1
    | b :: bs, [] => simp [keyLe] at h2
    | b :: bs, c :: cs =>
      rw [keyLe_cons_iff] at h1 h2 ⊢
      rcases h1 with h1 | ⟨h1e, h1r⟩ <;> rcases h2 with h2 | ⟨h2e, h2r⟩
      · left; omega
      · left; omega
      · left; omega
      · right; exact ⟨by omega, ih bs cs h1r h2r⟩

instance : IsTotal (List Char) credLE := ⟨fun a b => keyLe_total _ _⟩

instance : IsTrans (List Char) credLE := ⟨fun a b c => keyLe_trans _ _ _⟩

/-- `Array.from(allCredentials).sort()`. -/
def sortCreds (l : List (List Char)) : List (List Char) :=
  List.insertionSort credLE l

/-- `credentialsArray.join('\n')`. -/
def joinNl : List (List Char) → List Char
  | [] => []
  | [x] => x
  | x :: y :: xs => x ++ '\n' :: joinNl (y :: xs)

/-- The persisted combolist content (line 287): the sorted credentials joined
by newlines, plus a trailing newline. -/
def combolistContent (creds : List (List Char)) : List Char :=
  joinNl (sortCreds creds) ++ ['\n']

theorem splitNlF_irrel {f1 f2 : Nat} {s : List Char} (h1 : s.length ≤ f1)
    (h2 : s.length ≤ f2) : splitNlF f1 s = splitNlF f2 s := by
  induction f1 using Nat.strong_induction_on generalizing f2 s with
  | _ f1 ih =>
    match f1, s with
    | 0, s =>
      have hs : s = [] := by
        cases s with
        | nil => rfl
        | cons a t => simp at h1
      subst hs
      cases f2 <;> rfl
    | g + 1, s =>
      cases f2 with
      | zero =>
        have hs : s = [] := by
          cases s with
          | nil => rfl
          | cons a t => simp at h2
        subst hs; rfl
      | succ g2 =>
        simp only [splitNlF]
        cases hd : s.dropWhile (fun c => c != '\n') with
        | nil => rfl
        | cons d rest =>
          have hdl : (s.dropWhile (fun c => c != '\n')).length ≤ s.length :=
            dropWhile_len_le s
          rw [hd] at hdl
          simp only [List.length_cons] at hdl
          show _ :: splitNlF g rest = _ :: splitNlF g2 rest
          exact congrArg _ (@ih g (by omega) g2 rest (by omega) (by omega))

theorem takeWhile_eq_self_of_all {p : Char → Bool} {x : List Char}
    (h : ∀ c ∈ x, p c = true) : x.takeWhile p = x := by
  have h2 := takeWhile_append_all ([] : List Char) h
  simpa using h2

theorem splitNl_single {x : List Char} (h : ∀ c ∈ x, (c != '\n') = true) :
    splitNl x = [x] := by
  have hd : x.dropWhile (fun c => c != '\n') = [] :=
    List.dropWhile_eq_nil_iff.mpr h
  have ht : x.takeWhile (fun c => c != '\n') = x := takeWhile_eq_self_of_all h
  match x with
  | [] => rfl
  | c :: t =>
    show splitNlF (t.length + 1) (c :: t) = [c :: t]
    simp only [splitNlF, hd, ht]

theorem splitNl_cons {x r : List Char} (h : ∀ c ∈ x, (c != '\n') = true) :
    splitNl (x ++ '\n' :: r) = x :: splitNl r := by
  have hd : (x ++ '\n' :: r).dropWhile (fun c => c != '\n') = '\n' :: r := by
    rw [dropWhile_append_all _ h, List.dropWhile_cons]
    simp
  have ht : (x ++ '\n' :: r).takeWhile (fun c => c != '\n') = x := by
    rw [takeWhile_append_all _ h, List.takeWhile_cons]
    simp
  show splitNlF (x ++ '\n' :: r).length (x ++ '\n' :: r) = x :: splitNl r
  have hlen : (x ++ '\n' :: r).length = (x.length + r.length) + 1 := by
    simp only [List.length_append, List.length_cons]
    omega
  rw [hlen]
  simp only [splitNlF, hd, ht]
  exact congrArg _ (splitNlF_irrel (by omega) (Nat.le_refl _))

theorem splitNl_joinNl : ∀ l : List (List Char), l ≠ [] →
    (∀ cred ∈ l, ('\n' : Char) ∉ cred) →
    splitNl (joinNl l ++ ['\n']) = l ++ [[]] := by
  intro l
  induction l with
  | nil => intro h; exact absurd rfl h
  | cons x xs ih =>
    intro _ hno
    have hx : ∀ c ∈ x, (c != '\n') = true := by
      intro c hc
      rw [bne_iff_ne]
      intro he
      subst he
      exact hno x (by simp) hc
    match xs with
    | [] =>
      show splitNl (x ++ '\n' :: []) = [x] ++ [[]]
      rw [splitNl_cons hx]
      rfl
    | y :: ys =>
      show splitNl ((x ++ '\n' :: joinNl (y :: ys)) ++ ['\n']) = (x :: y :: ys) ++ [[]]
      rw [List.append_assoc, List.cons_append, splitNl_cons hx,
        ih (by simp) (fun cred hc => hno cred (by simp [hc]))]
      rfl

theorem setAdd_nodup {acc : List (List Char)} {x : List Char} (h : acc.Nodup) :
    (setAdd acc x).Nodup := by
  unfold setAdd
  split
  · exact h
  · rename_i hx
    rw [List.nodup_append]
    exact ⟨h, List.nodup_singleton x,
      fun a ha hb => by simp at hb; subst hb; exact hx ha⟩

theorem addAll_nodup : ∀ (l : List (List Char)) (acc : List (List Char)),
    acc.Nodup → (addAll acc l).Nodup := by
  intro l
  induction l with
  | nil => intro acc h; exact h
  | cons x xs ih => intro acc h; exact ih _ (setAdd_nodup h)

theorem setAdd_mem {acc : List (List Char)} {x y : List Char}
    (h : y ∈ setAdd acc x) : y ∈ acc ∨ y = x := by
  unfold setAdd at h
  split at h
  · exact Or.inl h
  · rcases List.mem_append.mp h with h1 | h1
    · exact Or.inl h1
    · simp at h1; exact Or.inr h1

theorem addAll_mem : ∀ (l acc : List (List Char)) (y : List Char),
    y ∈ addAll acc l → y ∈ acc ∨ y ∈ l := by
  intro l
  induction l with
  | nil => intro acc y h; exact Or.inl h
  | cons x xs ih =>
    intro acc y h
    rcases ih (setAdd acc x) y h with h3 | h3
    · rcases setAdd_mem h3 with h4 | h4
      · exact Or.inl h4
      · subst h4; exact Or.inr (by simp)
    · exact Or.inr (by simp [h3])

theorem processRecords_creds_nodup (domain : List Char) :
    ∀ (l : List FetchResult) (st : BatchState), st.creds.Nodup →
      (processRecords domain l st).creds.Nodup := by
  intro l
  induction l with
  | nil => intro st h; exact h
  | cons r rs ih =>
    intro st h
    match r with
    | FetchResult.ok content => exact ih _ (addAll_nodup _ _ h)
    | FetchResult.err msg =>
      simp only [processRecords]
      split
      · exact h
      · exact ih _ h

theorem processRecords_creds_src (domain : List Char) :
    ∀ (l : List FetchResult) (st : BatchState) (y : List Char),
      y ∈ (processRecords domain l st).creds →
      y ∈ st.creds ∨
        ∃ content, FetchResult.ok content ∈ l ∧
          y ∈ extractCredentials content domain := by
  intro l
  induction l with
  | nil => intro st y h; exact Or.inl h
  | cons r rs ih =>
    intro st y h
    match r with
    | FetchResult.ok content =>
      rcases ih _ y h with h3 | ⟨c2, hc2, hy2⟩
      · rcases addAll_mem _ _ y h3 with h4 | h4
        · exact Or.inl h4
        · exact Or.inr ⟨content, by simp, h4⟩
      · exact Or.inr ⟨c2, by simp [hc2], hy2⟩
    | FetchResult.err msg =>
      simp only [processRecords] at h
      split at h
      · exact Or.inl h
      · rcases ih _ y h with h3 | ⟨c2, hc2, hy2⟩
        · exact Or.inl h3
        · exact Or.inr ⟨c2, by simp [hc2], hy2⟩

theorem mem_of_mem_dropWhile {p : Char → Bool} :
    ∀ {l : List Char} {c : Char}, c ∈ l.dropWhile p → c ∈ l := by
  intro l
  induction l with
  | nil => intro c h; simp at h
  | cons a t ih =>
    intro c h
    rw [List.dropWhile_cons] at h
    split at h
    · exact List.mem_cons_of_mem a (ih h)
    · exact h

theorem mem_trimEndL {c : Char} {s : List Char} (h : c ∈ trimEndL s) : c ∈ s := by
  unfold trimEndL at h
  rw [List.mem_reverse] at h
  have h2 := mem_of_mem_dropWhile h
  rw [List.mem_reverse] at h2
  exact h2

theorem mem_trimL {c : Char} {s : List Char} (h : c ∈ trimL s) : c ∈ s :=
  mem_trimEndL (mem_of_mem_dropWhile h)

theorem grabPair_classes {sep : Char} {cls : Char → Bool} {r2 u p rest : List Char}
    (h : grabPair sep cls r2 = some (u, p, rest)) :
    (∀ c ∈ u, cls c = true) ∧ ∀ c ∈ p, cls c = true := by
  unfold grabPair at h
  cases hd : r2.dropWhile cls with
  | nil => rw [hd] at h; simp at h
  | cons c0 r4 =>
    rw [hd] at h
    dsimp only at h
    split at h
    · split at h
      · obtain ⟨h1, h2, -⟩ := by simpa using h
        rw [← h1, ← h2]
        exact ⟨fun c hc => List.mem_takeWhile_imp hc,
          fun c hc => List.mem_takeWhile_imp hc⟩
      · simp at h
    · simp at h

theorem matchP1At_classes {domain text u p rest : List Char}
    (h : matchP1At domain text = some (u, p, rest)) :
    (∀ c ∈ u, notColonWs c = true) ∧ ∀ c ∈ p, notColonWs c = true := by
  unfold matchP1At at h
  cases h1 : stripLitCI domain text with
  | none => rw [h1] at h; simp at h
  | some r0 =>
    rw [h1] at h
    dsimp only at h
    cases h2 : pathThen ':' r0 with
    | none => rw [h2] at h; simp at h
    | some r2 =>
      rw [h2] at h
      dsimp only at h
      exact grabPair_classes h

theorem matchP2Core_classes {domain t u p rest : List Char}
    (h : matchP2Core domain t = some (u, p, rest)) :
    (∀ c ∈ u, notPipeWs c = true) ∧ ∀ c ∈ p, notPipeWs c = true := by
  unfold matchP2Core at h
  cases h1 : stripLitCI domain t with
  | none => rw [h1] at h; simp at h
  | some r0 =>
    rw [h1] at h
    dsimp only at h
    cases h2 : pathThen '|' r0 with
    | none => rw [h2] at h; simp at h
    | some r2 =>
      rw [h2] at h
      dsimp only at h
      exact grabPair_classes h

theorem matchP2At_classes {domain text u p rest : List Char}
    (h : matchP2At domain text = some (u, p, rest)) :
    (∀ c ∈ u, notPipeWs c = true) ∧ ∀ c ∈ p, notPipeWs c = true := by
  unfold matchP2At at h
  split at h
  · cases h2 : matchP2Core domain (text.drop 8) with
    | some r =>
      rw [h2] at h
      obtain he := by simpa using h
      rw [he] at h2
      exact matchP2Core_classes h2
    | none =>
      rw [h2] at h
      exact matchP2Core_classes h
  · split at h
    · cases h2 : matchP2Core domain (text.drop 7) with
      | some r =>
        rw [h2] at h
        obtain he := by simpa using h
        rw [he] at h2
        exact matchP2Core_classes h2
      | none =>
        rw [h2] at h
        exact matchP2Core_classes h
    · exact matchP2Core_classes h

theorem scanCreds_classes {cls : Char → Bool}
    {matchAt : List Char → Option (List Char × List Char × List Char)}
    (hm : ∀ t u p rest, matchAt t = some (u, p, rest) →
      (∀ c ∈ u, cls c = true) ∧ ∀ c ∈ p, cls c = true) :
    ∀ (f : Nat) (text u p : List Char), (u, p) ∈ scanCreds matchAt f text →
      (∀ c ∈ u, cls c = true) ∧ ∀ c ∈ p, cls c = true := by
  intro f
  induction f with
  | zero => intro text u p h; simp [scanCreds] at h
  | succ g ih =>
    intro text u p h
    simp only [scanCreds] at h
    cases hma : matchAt text with
    | some t3 =>
      obtain ⟨u0, p0, rest0⟩ := t3
      rw [hma] at h
      rcases List.mem_cons.mp h with h1 | h1
      · rw [Prod.mk.injEq] at h1
        obtain ⟨he1, he2⟩ := h1
        subst he1; subst he2
        exact hm text u p rest0 hma
      · exact ih rest0 u p h1
    | none =>
      rw [hma] at h
      match text with
      | [] => simp at h
      | _ :: t => exact ih t u p h

theorem extractCredentials_no_newline (text domain cred : List Char)
    (hmem : cred ∈ extractCredentials text domain) : ('\n' : Char) ∉ cred := by
  intro hnl
  have h1 := dedupAux_mem _ [] cred hmem
  rcases List.mem_append.mp h1 with h2 | h2
  · rw [List.mem_filterMap] at h2
    obtain ⟨⟨u, p⟩, hup, hcred⟩ := h2
    unfold credOf at hcred
    split at hcred
    · have hcredv : cred = trimL u ++ ':' :: trimL p := by simpa using hcred.symm
      subst hcredv
      have hcls := scanCreds_classes (fun t u p rest hh => matchP1At_classes hh)
        (text.length + 1) text u p hup
      rcases List.mem_append.mp hnl with h3 | h3
      · have h4 := hcls.1 '\n' (mem_trimL h3)
        simp [notColonWs, jsWs] at h4
      · rcases List.mem_cons.mp h3 with h4 | h4
        · simp at h4
        · have h5 := hcls.2 '\n' (mem_trimL h4)
          simp [notColonWs, jsWs] at h5
    · simp at hcred
  · rw [List.mem_filterMap] at h2
    obtain ⟨⟨u, p⟩, hup, hcred⟩ := h2
    unfold credOf at hcred
    split at hcred
    · have hcredv : cred = trimL u ++ ':' :: trimL p := by simpa using hcred.symm
      subst hcredv
      have hcls := scanCreds_classes (fun t u p rest hh => matchP2At_classes hh)
        (text.length + 1) text u p hup
      rcases List.mem_append.mp hnl with h3 | h3
      · have h4 := hcls.1 '\n' (mem_trimL h3)
        simp [notPipeWs, jsWs] at h4
      · rcases List.mem_cons.mp h3 with h4 | h4
        · simp at h4
        · have h5 := hcls.2 '\n' (mem_trimL h4)
          simp [notPipeWs, jsWs] at h5
    · simp at hcred

theorem count_one_of_nodup_mem :
    ∀ (l : List (List Char)) (c : List Char), l.Nodup → c ∈ l → l.count c = 1 := by
  intro l
  induction l with
  | nil => intro c _ h; simp at h
  | cons a t ih =>
    intro c hnd hm
    have hnd2 := List.nodup_cons.mp hnd
    rcases List.mem_cons.mp hm with h1 | h1
    · subst h1
      have hz : t.count c = 0 := List.count_eq_zero.mpr hnd2.1
      simp [List.count_cons, hz]
    · have hne : c ≠ a := fun he => hnd2.1 (he ▸ h1)
      have hr := ih c hnd2.2 h1
      simp [List.count_cons, hr, hne]

/-- C2: a credential matched by both patterns (or more than once) appears
exactly once in the extractor's result, and the persisted combolist content
is the deduplicated credential set sorted lexicographically (UTF-16
code-unit order, JavaScript's default string sort), one credential per line
with no duplicate lines. -/
theorem combolist_dedup_sorted_lines :
    (∀ text domain : List Char, ∀ c ∈ extractCredentials text domain,
        (extractCredentials text domain).count c = 1) ∧
      ∀ (domain : List Char) (results : List FetchResult),
        List.Sorted credLE
            (sortCreds (processRecords domain results initBatch).creds) ∧
          (sortCreds (processRecords domain results initBatch).creds).Nodup ∧
          (sortCreds (processRecords domain results initBatch).creds ≠ [] →
            splitNl
                (combolistContent (processRecords domain results initBatch).creds) =
              sortCreds (processRecords domain results initBatch).creds ++ [[]]) := by
  constructor
  · intro text domain c hc
    exact count_one_of_nodup_mem _ c (dedupAux_nodup _ []).1 hc
  · intro domain results
    have hnodup : (processRecords domain results initBatch).creds.Nodup :=
      processRecords_creds_nodup domain results initBatch (by simp [initBatch])
    have hperm := List.perm_insertionSort credLE
      (processRecords domain results initBatch).creds
    refine ⟨List.sorted_insertionSort credLE _, hperm.symm.nodup hnodup, ?_⟩
    intro hne
    unfold combolistContent
    refine splitNl_joinNl _ hne ?_
    intro cred hcred
    have hcred2 : cred ∈ (processRecords domain results initBatch).creds :=
      hperm.mem_iff.mp hcred
    rcases processRecords_creds_src domain results initBatch cred hcred2 with
      h3 | ⟨content, -, h4⟩
    · simp [initBatch] at h3
    · exact extractCredentials_no_newline content domain cred h4

/-- Witness for `combolist_dedup_sorted_lines`. -/
theorem combolist_dedup_sorted_lines_witness :
    ("alice:secret1".data ∈
        extractCredentials "example.com:alice:secret1\n".data "example.com".data) ∧
      (extractCredentials "example.com:alice:secret1\n".data
          "example.com".data).count "alice:secret1".data = 1 ∧
      (sortCreds (processRecords "d".data [FetchResult.ok "d:u:p".data]
          initBatch).creds ≠ []) ∧
      splitNl (combolistContent (processRecords "d".data
          [FetchResult.ok "d:u:p".data] initBatch).creds) =
        sortCreds (processRecords "d".data [FetchResult.ok "d:u:p".data]
          initBatch).creds ++ [[]] :=
  ⟨by decide,
    combolist_dedup_sorted_lines.1 "example.com:alice:secret1\n".data
      "example.com".data "alice:secret1".data (by decide),
    by decide,
    (combolist_dedup_sorted_lines.2 "d".data
      [FetchResult.ok "d:u:p".data]).2.2 (by decide)⟩

/-! ### isDomain

Source (part_002, lines 160-165): strip a leading `http://`/`https://`
(case-sensitively — the replace has no `i` flag), keep everything before the
first `/`, and test
`/^[a-zA-Z0-9][a-zA-Z0-9-]*[a-zA-Z0-9]*\.[a-zA-Z]{2,}/` — anchored on the
left only. -/

def isAlnum (c : Char) : Bool :=
  ('a' ≤ c && c ≤ 'z') || ('A' ≤ c && c ≤ 'Z') || ('0' ≤ c && c ≤ '9')

def isAlphaAZ (c : Char) : Bool := ('a' ≤ c && c ≤ 'z') || ('A' ≤ c && c ≤ 'Z')

def isAlnumHyphen (c : Char) : Bool := isAlnum c || c = '-'

/-- `searchTerm.replace(/^https?:\/\//, '')`. -/
def stripProtocol (s : List Char) : List Char :=
  if startsWithL "https://".data s then s.drop 8
  else if startsWithL "http://".data s then s.drop 7
  else s

/-- The regex test.  The combined language of the two star groups is any run
over `[a-zA-Z0-9-]`, and the literal dot can only match at the end of the
maximal such run (no run character is a dot), so the left-anchored,
right-unanchored test is: first character alphanumeric, then the maximal
alphanumeric-or-hyphen run, then a dot and at least two alphabetic
characters. -/
def domainRegexTest : List Char → Bool
  | [] => false
  | c :: rest =>
    isAlnum c &&
      (match rest.dropWhile isAlnumHyphen with
        | '.' :: d1 :: d2 :: _ => isAlphaAZ d1 && isAlphaAZ d2
        | _ => false)

/-- `isDomain` from the source. -/
def isDomain (searchTerm : List Char) : Bool :=
  domainRegexTest ((stripProtocol searchTerm).takeWhile (fun c => c != '/'))

/-- The claim's shape, following the specification's words: a full match of
`label(-label)*.tld` where each label is a non-empty alphanumeric run and
the final segment (the entire remainder after the dot) is 2 or more
alphabetic characters. -/
def specDomainShapeF : Nat → List Char → Bool
  | 0, _ => false
  | f + 1, s =>
    decide (s.takeWhile isAlnum ≠ []) &&
      (match s.dropWhile isAlnum with
        | '-' :: r2 => specDomainShapeF f r2
        | '.' :: tld => decide (2 ≤ tld.length) && tld.all isAlphaAZ
        | _ => false)

def specDomainShape (s : List Char) : Bool := specDomainShapeF (s.length + 1) s

/-- Amended spec-side predicate: the cleaned string has a *prefix* of the
form: one alphanumeric character, then any run of alphanumerics or hyphens,
then a dot, then at least two alphabetic characters (everything further to
the right is unconstrained). -/
def specDomainLoose : List Char → Bool
  | [] => false
  | c :: rest =>
    isAlnum c &&
      (match rest.dropWhile isAlnumHyphen with
        | '.' :: d1 :: d2 :: _ => isAlphaAZ d1 && isAlphaAZ d2
        | _ => false)

/-- C5 counterexample: the regex is unanchored on the right, so
`"example.com:8080"` classifies as a domain even though it does not match
the claimed full shape `label(-label)*.tld` (its final segment `com:8080`
is not alphabetic). -/
theorem isDomain_counterexample :
    isDomain "example.com:8080".data = true ∧
      specDomainShape ((stripProtocol "example.com:8080".data).takeWhile
        (fun c => c != '/')) = false ∧
      ¬(isDomain "example.com:8080".data = true ↔
        specDomainShape ((stripProtocol "example.com:8080".data).takeWhile
          (fun c => c != '/')) = true) :=
  ⟨by decide, by decide, by decide⟩

/-- C5 (amended): the classifier strips a leading `http://`/`https://` and
everything after the first `/`, and returns true iff the remainder has a
prefix of the form: alphanumeric character, any run of alphanumerics or
hyphens, a dot, then two alphabetic characters; the four concrete examples
of the claim all hold. -/
theorem isDomain_amended :
    (∀ s : List Char, isDomain s =
        specDomainLoose ((stripProtocol s).takeWhile (fun c => c != '/'))) ∧
      isDomain "example.com".data = true ∧
      isDomain "https://example.com/path".data = true ∧
      isDomain "user@example.com".data = false ∧
      isDomain "1d69f42e-3e31-46cc-a349-0870d07b3b61".data = false := by
  refine ⟨fun s => ?_, by decide, by decide, by decide, by decide⟩
  unfold isDomain domainRegexTest specDomainLoose
  rfl

/-! ### formatPreview, non-match context lines

Source (part_002, lines 397-415).  `maxLineWidth * 0.7` is an IEEE-754
double product; `0.7` as a double is `3152519739159347 / 2^52`, and the
product is rounded to nearest (ties to even).  At some widths this differs
from the exact rational `0.7 * maxLineWidth` — e.g. `90 * 0.7` is
`62.99999999999999…`, strictly below 63. -/

/-- `0.7 * 2^52` rounded to nearest: the scaled significand of the double
nearest `0.7`. -/
def m07 : Nat := 3152519739159347

def bitlenF : Nat → Nat → Nat
  | 0, _ => 0
  | f + 1, n => if n = 0 then 0 else bitlenF f (n / 2) + 1

/-- Number of binary digits of `n`. -/
def bitlen (n : Nat) : Nat := bitlenF n n

/-- Round `X / 2^s` to nearest, ties to even (for `s ≥ 1`). -/
def rne (X s : Nat) : Nat :=
  if 2 ^ (s - 1) < X % 2 ^ s then X / 2 ^ s + 1
  else if X % 2 ^ s < 2 ^ (s - 1) then X / 2 ^ s
  else if (X / 2 ^ s) % 2 = 0 then X / 2 ^ s else X / 2 ^ s + 1

/-- `n > m * 0.7` evaluated as JavaScript does: the exact product
`m * m07 / 2^52` is rounded to the nearest double (53-bit significand,
ties to even) and compared with the integer `n`. -/
def gtMul07 (n m : Nat) : Bool :=
  if bitlen (m * m07) ≤ 53 then decide (m * m07 < n * 2 ^ 52)
  else
    decide (rne (m * m07) (bitlen (m * m07) - 53) * 2 ^ (bitlen (m * m07) - 53) <
      n * 2 ^ 52)

/-- `chalk.gray(s)`: wrap in the gray SGR codes. -/
def grayWrap (s : List Char) : List Char :=
  "\x1b[90m".data ++ s ++ "\x1b[39m".data

/-- `s.lastIndexOf(' ')`, `none` for `-1`. -/
def lastSpaceIdx : List Char → Option Nat
  | [] => none
  | c :: t =>
    match lastSpaceIdx t with
    | some i => some (i + 1)
    | none => if c = ' ' then some 0 else none

/-- The non-match context-line branch of `formatPreview` (lines 397-414):
normalize whitespace runs, show the line whole when its visible length fits
in `maxLineWidth`, otherwise truncate it — cutting at the last space of the
first `maxLineWidth - 3` characters when the float comparison
`lastSpace > maxLineWidth * 0.7` holds (a `lastIndexOf` result of `-1`
never exceeds the non-negative product), else exactly at `maxLineWidth - 3`
— and append a gray ellipsis.  `lineNumStr` is the padded line number. -/
def formatContextLine (line : List Char) (maxLineWidth : Nat)
    (lineNumStr : List Char) : List Char :=
  let l := normalizeSpaces line
  let pre := grayWrap (' ' :: (lineNumStr ++ ": ".data))
  if maxLineWidth < (stripAnsi l).length then
    let truncateAt :=
      match lastSpaceIdx (l.take (maxLineWidth - 3)) with
      | some i => if gtMul07 i maxLineWidth then i else maxLineWidth - 3
      | none => maxLineWidth - 3
    pre ++ (l.take truncateAt ++ grayWrap "...".data) ++ ['\n']
  else pre ++ l ++ ['\n']

/-- The claim's literal reading of the same renderer: runs of 3 or more
*spaces* (not general whitespace) collapse to three spaces, and the
cut-at-space rule uses the exact rational 70% of the width. -/
def normalizeSpacesOrigF : Nat → List Char → List Char
  | 0, s => s
  | _ + 1, [] => []
  | f + 1, c :: rest =>
    if c = ' ' then
      (if 3 ≤ ((c :: rest).takeWhile (fun x => x = ' ')).length then [' ', ' ', ' ']
        else (c :: rest).takeWhile (fun x => x = ' ')) ++
        normalizeSpacesOrigF f ((c :: rest).dropWhile (fun x => x = ' '))
    else c :: normalizeSpacesOrigF f rest

def normalizeSpacesOrig (s : List Char) : List Char := normalizeSpacesOrigF s.length s

/-- The claim as stated, as a renderer (spec-side, from the claim's words). -/
def specCtxLineOrig (line : List Char) (maxLineWidth : Nat)
    (lineNumStr : List Char) : List Char :=
  let l := normalizeSpacesOrig line
  let pre := grayWrap (' ' :: (lineNumStr ++ ": ".data))
  if maxLineWidth < (stripAnsi l).length then
    let truncateAt :=
      match lastSpaceIdx (l.take (maxLineWidth - 3)) with
      | some i => if 7 * maxLineWidth < 10 * i then i else maxLineWidth - 3
      | none => maxLineWidth - 3
    pre ++ (l.take truncateAt ++ grayWrap "...".data) ++ ['\n']
  else pre ++ l ++ ['\n']

/-- 63 non-spaces, a space at index 63, then 30 more non-spaces: 94 visible
characters. -/
def line90 : List Char := List.replicate 63 'a' ++ ' ' :: List.replicate 30 'b'

/-- C8 counterexample: the code differs from the claim as stated, in two
concrete places.  (1) `normalizeSpaces` collapses runs of any whitespace
(`\s{3,}`), not only spaces: a line of four tabs renders as three spaces,
not as four tabs.  (2) The 70% test is a float comparison: at width 90 the
double product `90 * 0.7` is strictly below 63, so a last space at index 63
(exactly 70% of 90, not beyond it) is chosen as the cut point by the code
but not by the exact-70% rule. -/
theorem formatContextLine_counterexample :
    formatContextLine "\t\t\t\t".data 10 "     1".data ≠
        specCtxLineOrig "\t\t\t\t".data 10 "     1".data ∧
      formatContextLine line90 90 "     1".data ≠
        specCtxLineOrig line90 90 "     1".data :=
  ⟨by decide, by decide⟩

/-- The amended claim's renderer, from the amended words: collapse runs of 3
or more whitespace characters to exactly three spaces; if the normalized
line's visible length is at most the width, show it whole; otherwise cut at
the last space of the first `width - 3` characters when that index exceeds
the IEEE-double product `width * 0.7`, else exactly at `width - 3`, and
append the ellipsis marker. -/
def specCtxLineAmended (line : List Char) (maxLineWidth : Nat)
    (lineNumStr : List Char) : List Char :=
  let l := normalizeSpaces line
  let pre := grayWrap (' ' :: (lineNumStr ++ ": ".data))
  if (stripAnsi l).length ≤ maxLineWidth then pre ++ l ++ ['\n']
  else
    let cut :=
      match lastSpaceIdx (l.take (maxLineWidth - 3)) with
      | some i => if gtMul07 i maxLineWidth then i else maxLineWidth - 3
      | none => maxLineWidth - 3
    pre ++ (l.take cut ++ grayWrap "...".data) ++ ['\n']

/-- C8 (amended): for every context line, width and line-number gutter, the
rendered non-match context line follows the amended description. -/
theorem formatContextLine_amended (line : List Char) (maxLineWidth : Nat)
    (lineNumStr : List Char) :
    formatContextLine line maxLineWidth lineNumStr =
      specCtxLineAmended line maxLineWidth lineNumStr := by
  unfold formatContextLine specCtxLineAmended
  by_cases h : maxLineWidth < (stripAnsi (normalizeSpaces line)).length
  · rw [if_pos h, if_neg (by omega)]
  · rw [if_neg h, if_pos (by omega)]
